import Mathlib

/-!
Shallow embedding of the RAG mutual-fund chatbot core
(`src/vector_store/chroma_store.py`, `src/retrieval/rag_chain.py`,
`src/scripts/scheduled_scraper.py`) together with proofs settling the
frozen specification claims.  Python dicts are modelled as ordered
association lists, Python scalar values as an inductive `PyVal`,
`datetime` values as integers on an abstract tick scale (one hour =
3600 ticks, matching `timedelta(hours=h)` over seconds), and the
external embedding/LLM/scraper collaborators as explicit oracles.
-/

namespace RagSpec

/-! ## Python value model

`PyVal` models the values that can appear in a chunk's metadata dict.
`timeStr t` models the ISO-8601 string produced by
`datetime.now().isoformat()` for the instant `t`; Python treats it as an
ordinary `str`, and `datetime.fromisoformat` recovers `t` from it.
`obj` models any non-scalar value (nested dict/list/etc.), opaque here. -/
inductive PyVal where
  | str (s : String)
  | timeStr (t : Int)
  | int (n : Int)
  | bool (b : Bool)
  | pyNone
  | obj (tag : Nat)
  deriving DecidableEq, Repr

/-- `isinstance(value, (str, int, float, bool, type(None)))` in
`upsert_documents`' metadata-cleaning loop: everything except
non-scalar objects. -/
def PyVal.isScalar : PyVal → Bool
  | .obj _ => false
  | _ => true

/-- Python truthiness (`if value:`) for the modelled values. -/
def PyVal.truthy : PyVal → Bool
  | .str s => s ≠ ""
  | .timeStr _ => true
  | .int n => n ≠ 0
  | .bool b => b
  | .pyNone => false
  | .obj _ => true

/-- `str(value)` as used inside f-strings when building chunk ids. -/
def PyVal.pyStr : PyVal → String
  | .str s => s
  | .timeStr t => "isotime(" ++ toString t ++ ")"
  | .int n => toString n
  | .bool b => if b then "True" else "False"
  | .pyNone => "None"
  | .obj tag => "object(" ++ toString tag ++ ")"

/-- A metadata dict: ordered association list, as Python dicts preserve
insertion order. -/
abbrev Meta := List (String × PyVal)

/-- `d.get(key, default)` (first binding wins, as keys are unique in a
real dict). -/
def metaGet (m : Meta) (key : String) (dflt : PyVal) : PyVal :=
  match m.find? (fun kv => kv.1 = key) with
  | some kv => kv.2
  | none => dflt

/-- `d[key] = value`: replace the existing binding in place, or append. -/
def metaSet (m : Meta) (key : String) (v : PyVal) : Meta :=
  if m.any (fun kv => kv.1 = key) then
    m.map (fun kv => if kv.1 = key then (key, v) else kv)
  else
    m ++ [(key, v)]

/-- All metadata values are simple scalars (the §3 data-model invariant). -/
def metaAllScalar (m : Meta) : Bool :=
  m.all (fun kv => kv.2.isScalar)

/-! ## Document and collection model

`Doc` is a `langchain` `Document` (page content + metadata dict).
`Collection` models the ChromaDB collection: an ordered list of records
keyed by unique string ids, each holding an embedding vector, the raw
document text, and a metadata dict. -/

structure Doc where
  page_content : String
  metadata : Meta
  deriving DecidableEq, Repr

structure StoredDoc where
  embedding : List Int
  document : String
  metadata : Meta
  deriving DecidableEq, Repr

structure Collection where
  docs : List (String × StoredDoc)
  deriving DecidableEq, Repr

def Collection.empty : Collection := ⟨[]⟩

/-- `collection.count()`. -/
def Collection.count (c : Collection) : Nat := c.docs.length

/-- `collection.get()['ids']`. -/
def Collection.ids (c : Collection) : List String := c.docs.map Prod.fst

/-- `collection.get(ids=[id])`: the record stored under an id. -/
def Collection.lookup (c : Collection) (id : String) : Option StoredDoc :=
  match c.docs.find? (fun kv => kv.1 = id) with
  | some kv => some kv.2
  | none => none

/-- `collection.update(ids=..., metadatas=...)`: a metadata-only update
of the listed ids; embeddings and document texts are untouched. -/
def Collection.updateMetadatas (c : Collection) (upds : List (String × Meta)) :
    Collection :=
  ⟨c.docs.map (fun kv =>
    match upds.find? (fun u => u.1 = kv.1) with
    | some u => (kv.1, { kv.2 with metadata := u.2 })
    | none => kv)⟩

/-- `collection.upsert(...)`: replace the record of every id that already
exists, append the records of fresh ids in order. -/
def Collection.upsert (c : Collection) (entries : List (String × StoredDoc)) :
    Collection :=
  ⟨c.docs.map (fun kv =>
      match entries.find? (fun e => e.1 = kv.1) with
      | some e => e
      | none => kv)
    ++ entries.filter (fun e => ¬ c.docs.any (fun kv => kv.1 = e.1))⟩

/-- `collection.add(...)`: plain insert of fresh ids. -/
def Collection.add (c : Collection) (entries : List (String × StoredDoc)) :
    Collection :=
  ⟨c.docs ++ entries⟩

/-! ## Python string helpers -/

/-- `needle` occurs as a contiguous sublist of `hay`. -/
def containsSub (needle : List Char) : List Char → Bool
  | [] => needle.isEmpty
  | c :: t => needle.isPrefixOf (c :: t) || containsSub needle t

/-- Python's `needle in hay` substring test. -/
def pyIn (needle hay : String) : Bool :=
  containsSub needle.toList hay.toList

/-- Python's `s.lower()` (ASCII case folding, structural so that the
kernel can evaluate it). -/
def pyLower (s : String) : String :=
  ⟨s.toList.map Char.toLower⟩

/-- The whitespace stripped by `str.strip()` (ASCII range). -/
def pyWhitespace : List Char := [' ', '\t', '\n', '\r', '\x0b', '\x0c']

/-- `s.lstrip(chars)` over a character list. -/
def lstripChars (set : List Char) (cs : List Char) : List Char :=
  cs.dropWhile (fun c => set.contains c)

/-- `s.rstrip(chars)` over a character list. -/
def rstripChars (set : List Char) (cs : List Char) : List Char :=
  (cs.reverse.dropWhile (fun c => set.contains c)).reverse

/-- `s.strip()` over a character list. -/
def stripWs (cs : List Char) : List Char :=
  rstripChars pyWhitespace (lstripChars pyWhitespace cs)

/-! ## `ChromaVectorStore._batch_embed_documents`

The Google embedding provider is an external collaborator; it is
modelled as an oracle `Nat → EmbedResp` mapping the running API-call
counter (`api_call_count`) to the outcome of that call: a list of
vectors, or a raised exception carrying its message string. -/

inductive EmbedResp where
  | ok (vecs : List (List Int))
  | err (msg : String)
  deriving DecidableEq, Repr

/-- Outcome of embedding one batch: the embeddings or the re-raised
exception message, the updated API-call counter, and the list of
backoff waits (seconds) slept before each retry. -/
structure BatchOut where
  result : Except String (List (List Int))
  apiCalls : Nat
  waits : List Nat
  deriving Repr

/-- `"quota" in error_msg or "429" in error_msg or "resource" in error_msg`
(on the lower-cased message). -/
def quotaIndicated (m : String) : Bool :=
  pyIn "quota" m || pyIn "429" m || pyIn "resource" m

/-- `"limit: 0" in error_msg or "free_tier_requests" in error_msg`. -/
def hardZeroQuota (m : String) : Bool :=
  pyIn "limit: 0" m || pyIn "free_tier_requests" m

/-- The `while retry_count <= max_retries and not success` loop of
`_batch_embed_documents`, for one batch.  `fuel` is the loop bound
`max_retries + 1 - retry_count`; the fuel-exhausted branch models the
`if not success: raise` line after the loop, which is unreachable
because every failing iteration either retries or raises. -/
def embedBatchGo (oracle : Nat → EmbedResp) (maxRetries : Nat) :
    Nat → Nat → Nat → List Nat → BatchOut
  | 0, _, apiCalls, waits =>
      ⟨.error "Failed to embed batch after retries", apiCalls, waits⟩
  | fuel + 1, retryCount, apiCalls, waits =>
      match oracle apiCalls with
      | .ok vecs => ⟨.ok vecs, apiCalls + 1, waits⟩
      | .err msg =>
          let errorMsg := pyLower msg
          if quotaIndicated errorMsg then
            if hardZeroQuota errorMsg then
              -- quota completely exhausted: raise with no retries
              ⟨.error msg, apiCalls + 1, waits⟩
            else
              let rc := retryCount + 1
              if rc ≤ maxRetries then
                -- exponential backoff: wait_time = 5 * (2 ** (retry_count - 1))
                embedBatchGo oracle maxRetries fuel rc (apiCalls + 1)
                  (waits ++ [5 * 2 ^ (rc - 1)])
              else
                -- failed after max_retries retries: raise
                ⟨.error msg, apiCalls + 1, waits⟩
          else
            -- non-quota error: raise immediately
            ⟨.error msg, apiCalls + 1, waits⟩

/-- One batch processed from a fresh retry counter. -/
def embedBatch (oracle : Nat → EmbedResp) (maxRetries apiCalls : Nat) : BatchOut :=
  embedBatchGo oracle maxRetries (maxRetries + 1) 0 apiCalls []

/-- Structural worker for `toBatches`; the fuel (initially the list
length) dominates the ≥ 1 elements consumed per step, so the
fuel-exhausted branch is unreachable. -/
def toBatchesGo (batchSize : Nat) : Nat → List String → List (List String)
  | _, [] => []
  | 0, _ :: _ => []
  | fuel + 1, t :: ts =>
      (t :: ts).take batchSize :: toBatchesGo batchSize fuel (ts.drop (batchSize - 1))

/-- `for i in range(0, len(texts), batch_size)` batch partitioning
(`batchSize` is positive at every call site). -/
def toBatches (batchSize : Nat) (texts : List String) : List (List String) :=
  toBatchesGo batchSize texts.length texts

/-- Tail of `_batch_embed_documents`: process the batches in order,
threading the API-call counter, accumulating embeddings and the
per-batch retry waits; the first raised exception aborts. -/
def batchEmbedGo (oracle : Nat → EmbedResp) (maxRetries : Nat) :
    List (List String) → Nat → List (List Int) → List (List Nat) →
    Except String (List (List Int)) × Nat × List (List Nat)
  | [], apiCalls, acc, waitss => (.ok acc, apiCalls, waitss)
  | _batch :: rest, apiCalls, acc, waitss =>
      let out := embedBatch oracle maxRetries apiCalls
      match out.result with
      | .ok vecs =>
          batchEmbedGo oracle maxRetries rest out.apiCalls (acc ++ vecs)
            (waitss ++ [out.waits])
      | .error m => (.error m, out.apiCalls, waitss ++ [out.waits])

/-- `_batch_embed_documents(texts, batch_size, delay, max_retries)`.
The inter-batch courtesy `time.sleep(delay)` has no observable effect in
this model and is omitted; the retry backoff sleeps are recorded. -/
def batchEmbedDocuments (oracle : Nat → EmbedResp) (texts : List String)
    (batchSize : Nat) (maxRetries : Nat) :
    Except String (List (List Int)) × Nat × List (List Nat) :=
  batchEmbedGo oracle maxRetries (toBatches batchSize texts) 0 [] []

/-! ## `add_documents` and `upsert_documents`

Both operate on the happy path of the embedding provider, abstracted as
a pure function `List String → List (List Int)` (the result of
`_batch_embed_documents` when no exception is raised).  Each result
records `embeddedTexts`, the texts actually sent to the provider, so
that "no embedding-provider call is made for that document" is a
statement of the model. -/

structure WriteOut where
  ids : List String
  coll : Collection
  embeddedTexts : List String
  deriving DecidableEq, Repr

/-- `f"{doc.metadata.get('source_file', 'doc')}_{doc.metadata.get('chunk_index', 0)}_{i}"` -/
def mkDocId (md : Meta) (i : Nat) : String :=
  (metaGet md "source_file" (.str "doc")).pyStr ++ "_" ++
    (metaGet md "chunk_index" (.int 0)).pyStr ++ "_" ++ toString i

/-- The id list generated for a batch of documents. -/
def docIds (documents : List Doc) : List String :=
  documents.enum.map (fun di => mkDocId di.2.metadata di.1)

/-- `add_documents(documents, batch_size)`: embed every text and
`collection.add` the records.  Note that the raw `doc.metadata` dicts
are stored without any cleaning. -/
def addDocuments (embedFn : List String → List (List Int))
    (coll : Collection) (documents : List Doc) : WriteOut :=
  if documents.isEmpty then ⟨[], coll, []⟩
  else
    let texts := documents.map Doc.page_content
    let metadatas := documents.map Doc.metadata
    let embeddings := embedFn texts
    let ids := docIds documents
    ⟨ids,
     coll.add (ids.zip ((embeddings.zip (texts.zip metadatas)).map
       (fun e => ⟨e.1, e.2.1, e.2.2⟩))),
     texts⟩

/-- The metadata-cleaning loop of `upsert_documents`: keep only scalar
values, then set `ingestion_timestamp`. -/
def cleanMetadata (md : Meta) (ts : Int) : Meta :=
  metaSet (md.filter (fun kv => kv.2.isScalar)) "ingestion_timestamp" (.timeStr ts)

/-- The records `upsert_documents` hands to `collection.upsert` for the
new documents: cleaned metadata with a fresh `ingestion_timestamp`, the
embedded vectors, the raw texts. -/
def upsertEntries (embedFn : List String → List (List Int)) (now : Int)
    (new_documents : List Doc) (new_ids : List String) :
    List (String × StoredDoc) :=
  let texts := new_documents.map Doc.page_content
  let metadatas := new_documents.map (fun d => cleanMetadata d.metadata now)
  let embeddings := embedFn texts
  new_ids.zip ((embeddings.zip (texts.zip metadatas)).map
    (fun e => ⟨e.1, e.2.1, e.2.2⟩))

/-- The metadata-only refresh of `ingestion_timestamp` that
`upsert_documents` performs on the already-existing ids. -/
def refreshExistingMetadata (coll : Collection) (now : Int)
    (existing_ids_to_update : List String) : Collection :=
  let existingUpds := existing_ids_to_update.filterMap (fun id =>
    match coll.lookup id with
    | some sd =>
        some (id, metaSet sd.metadata "ingestion_timestamp" (.timeStr now))
    | none => none)
  coll.updateMetadatas existingUpds

/-- `upsert_documents(documents, batch_size, skip_existing)` at instant
`now` (`datetime.now()`).  The existing-id scan (`collection.get()`)
succeeds in this model: the store is available. -/
def upsertDocuments (embedFn : List String → List (List Int)) (now : Int)
    (coll : Collection) (documents : List Doc) (skip_existing : Bool) :
    WriteOut :=
  if documents.isEmpty then ⟨[], coll, []⟩
  else
    let ids := docIds documents
    let existing_ids : List String := if skip_existing then coll.ids else []
    -- separate new and existing documents
    let newPairs := (documents.zip ids).filter
      (fun p => ¬ existing_ids.contains p.2)
    let new_documents := newPairs.map Prod.fst
    let new_ids := newPairs.map Prod.snd
    let existing_ids_to_update := ids.filter (fun id => existing_ids.contains id)
    -- refresh ingestion_timestamp on the existing documents (metadata-only)
    let coll1 := refreshExistingMetadata coll now existing_ids_to_update
    if new_documents.isEmpty then
      -- all documents already exist: timestamps updated, full id list returned
      ⟨ids, coll1, []⟩
    else
      ⟨ids, coll1.upsert (upsertEntries embedFn now new_documents new_ids),
       new_documents.map Doc.page_content⟩

/-! ## Catalog: freshness (`get_latest_ingestion_timestamp`,
`check_if_data_needs_update`)

`datetime` instants are integers counting seconds; `timedelta(hours=h)`
is `3600 * h`.  Parsing `ingestion_timestamp` succeeds on ISO strings
(`timeStr`) and on numbers (`datetime.fromtimestamp`), and fails (the
`except: continue`) on anything else; `file_mod_time` is used only when
it is a number. -/

/-- The parseable timestamp of a metadata `ingestion_timestamp` value. -/
def parseIngestionTs (v : PyVal) : Option Int :=
  match v with
  | .timeStr t => some t
  | .int n => some n
  | _ => none

/-- Per-chunk scan step of `get_latest_ingestion_timestamp`. -/
def chunkLatest (acc : Option Int) (md : Meta) : Option Int :=
  let acc1 :=
    let its := metaGet md "ingestion_timestamp" .pyNone
    if its.truthy then
      match parseIngestionTs its with
      | some t => match acc with
        | some l => some (max l t)
        | none => some t
      | none => acc
    else acc
  let fmt := metaGet md "file_mod_time" .pyNone
  if fmt.truthy then
    match fmt with
    | .int n => match acc1 with
      | some l => some (max l n)
      | none => some n
    | _ => acc1
  else acc1

/-- `get_latest_ingestion_timestamp()`. -/
def getLatestIngestionTimestamp (coll : Collection) : Option Int :=
  (coll.docs.map (fun kv => kv.2.metadata)).foldl chunkLatest none

/-- `check_if_data_needs_update(interval_hours)` at instant `now`:
`(needs_update, latest_timestamp, next_update_time)`. -/
def checkIfDataNeedsUpdate (now : Int) (coll : Collection)
    (interval_hours : Int) : Bool × Option Int × Option Int :=
  match getLatestIngestionTimestamp coll with
  | none => (true, none, none)
  | some latest =>
      let interval_delta := 3600 * interval_hours
      let needs_update := decide (now - latest ≥ interval_delta)
      (needs_update, some latest,
       if needs_update then none else some (latest + interval_delta))

/-! ## Catalog: novelty (`get_existing_urls`, `find_new_urls`) -/

/-- `url.strip().rstrip('/').lower()`. -/
def normalizeUrlKey (url : String) : String :=
  ⟨(rstripChars ['/'] (stripWs url.toList)).map Char.toLower⟩

/-- `get_existing_urls()`: the normalized `source_url` values present in
the stored metadata (membership-equivalent model of the Python set). -/
def getExistingUrls (coll : Collection) : List String :=
  (coll.docs.map (fun kv => kv.2.metadata)).filterMap (fun md =>
    match metaGet md "source_url" .pyNone with
    | .str s =>
        if s ≠ "" then
          let normalized := normalizeUrlKey s
          if normalized ≠ "" then some normalized else none
        else none
    | _ => none)

/-- The `for url in config_urls` loop of `find_new_urls`. -/
def findNewUrlsGo (existing : List String) : List String → List String
  | [] => []
  | url :: rest =>
      if url = "" then findNewUrlsGo existing rest
      else
        let normalized := normalizeUrlKey url
        if normalized ≠ "" ∧ ¬ existing.contains normalized then
          url :: findNewUrlsGo existing rest
        else findNewUrlsGo existing rest

/-- `find_new_urls(config_urls)`. -/
def findNewUrls (coll : Collection) (config_urls : List String) : List String :=
  findNewUrlsGo (getExistingUrls coll) config_urls

/-! ## `RAGChain._is_parameter_only_query` and retrieval routing -/

/-- The `parameter_patterns` dict, in insertion order. -/
def parameterPatterns : List (String × List String) :=
  [("aum", ["aum", "assets under management", "assets under mgmt"]),
   ("fund_size", ["fund size", "size of fund"]),
   ("expense_ratio", ["expense ratio", "ter", "total expense ratio"]),
   ("nav", ["nav", "net asset value"]),
   ("returns", ["returns", "return", "performance"]),
   ("exit_load", ["exit load", "exit load charges"]),
   ("min_sip", ["minimum sip", "min sip", "sip minimum", "minimum investment"]),
   ("risk_level", ["risk level", "risk", "riskometer"]),
   ("category", ["category", "fund category"]),
   ("lock_in", ["lock in", "lock-in", "lockin period"])]

/-- `['all', 'every', 'each', 'list', 'show', 'table', 'compare']`. -/
def allFundsWords : List String :=
  ["all", "every", "each", "list", "show", "table", "compare"]

/-- `[' of ', ' for ', ' fund', ' scheme', ' plan']`. -/
def fundIndicators : List String := [" of ", " for ", " fund", " scheme", " plan"]

/-- `_is_parameter_only_query(question)`.  In the source, the nested
pattern loop returns `(True, param_name)` for the first matching
pattern when the follow-up condition holds; since `has_specific_fund`
and the all/every/... check do not depend on the pattern, the loop is
equivalent to: find the first parameter with a matching pattern, then
apply the (pattern-independent) condition once. -/
def isParameterOnlyQuery (question : String) : Bool × Option String :=
  let question_lower := pyLower question
  let hasAllWord := allFundsWords.any (fun w => pyIn w question_lower)
  let has_specific_fund := fundIndicators.any
    (fun ind => pyIn ind question_lower && !hasAllWord)
  match parameterPatterns.findSome? (fun pp =>
      if pp.2.any (fun pat => pyIn pat question_lower) then some pp.1
      else none) with
  | some param_name =>
      if !has_specific_fund || hasAllWord then (true, some param_name)
      else (false, none)
  | none => (false, none)

/-- The two retrieval paths of `query_with_retrieval`. -/
inductive RetrievalPath where
  | fullScan
  | similarity (k : Nat)
  deriving DecidableEq, Repr

/-- The retrieval-routing head of `query_with_retrieval(question, k)`:
parameter-wide questions use `get_all_funds()`; otherwise similarity
search with `k` widened to at least 5 for comparison questions. -/
def retrievalRoute (question : String) (k : Nat) : RetrievalPath :=
  if (isParameterOnlyQuery question).1 then .fullScan
  else
    let retrieval_k :=
      if pyIn "compare" (pyLower question) || pyIn "multiple" (pyLower question)
      then max k 5 else k
    .similarity retrieval_k

/-- `get_all_funds()`: the full-store scan, restricted to chunks whose
metadata carries a truthy `fund_name`. -/
def getAllFunds (coll : Collection) : List Doc :=
  coll.docs.filterMap (fun kv =>
    if (metaGet kv.2.metadata "fund_name" (.str "")).truthy then
      some ⟨kv.2.document, kv.2.metadata⟩
    else none)

/-! ## `ScheduledScraper`: `run_scraping` and `run_full_pipeline`

The Groww scraper is an external collaborator: `scrape url` yields a
file path, `None` (no file generated), or a raised exception.  The
freshness check, URL detection and ingestion stage results are likewise
supplied as oracle values, so a pipeline run is a pure function of
them; the `ranScraping` / `ranIngestion` flags record which stages had
side effects. -/

inductive ScrapeOutcome where
  | success (filepath : String)
  | noFile
  | raised (msg : String)
  deriving DecidableEq, Repr

/-- One entry of the `results` list of `run_scraping`. -/
def scrapeStatus : ScrapeOutcome → String
  | .success _ => "success"
  | .noFile => "failed"
  | .raised _ => "error"

structure ScrapingResult where
  status : String
  successful : Nat
  failed : Nat
  results : List (String × String)
  deriving DecidableEq, Repr

/-- The per-URL loop of `run_scraping`: every URL is attempted, each
outcome (including a raised exception, which is caught) is recorded,
and the loop never aborts. -/
def scrapeLoop (scrape : String → ScrapeOutcome) : List String →
    List (String × String)
  | [] => []
  | url :: rest =>
      if url = "" then scrapeLoop scrape rest
      else (url, scrapeStatus (scrape url)) :: scrapeLoop scrape rest

/-- `run_scraping(urls_to_scrape)`; `urls_to_scrape = none` falls back
to the config URLs (already filtered for truthiness by
`[item.get("url") for item in urls_config if item.get("url")]`). -/
def runScraping (scrape : String → ScrapeOutcome) (configUrls : List String)
    (urls_to_scrape : Option (List String)) : ScrapingResult :=
  match urls_to_scrape with
  | none =>
      if configUrls.isEmpty then ⟨"skipped", 0, 0, []⟩
      else
        let results := scrapeLoop scrape configUrls
        let successful := (results.filter (fun r => r.2 = "success")).length
        ⟨"completed", successful, results.length - successful, results⟩
  | some urls =>
      let results := scrapeLoop scrape urls
      let successful := (results.filter (fun r => r.2 = "success")).length
      ⟨"completed", successful, results.length - successful, results⟩

structure PipelineResult where
  scrapingStatus : String
  scraping : Option ScrapingResult
  ingestionStatus : String
  skipped : Bool
  newUrlsDetected : Nat
  ranScraping : Bool
  ranIngestion : Bool
  deriving DecidableEq, Repr

/-- The scraping + ingestion stages of `run_full_pipeline` (everything
after the early "data is still fresh" return). -/
def runPipelineStages (scrape : String → ScrapeOutcome)
    (configUrls : List String) (new_urls : List String)
    (autoIngest : Bool) (ingestStatus : String) : PipelineResult :=
  let urls_to_scrape := if new_urls.isEmpty then none else some new_urls
  let scraping_result := runScraping scrape configUrls urls_to_scrape
  if autoIngest then
    if scraping_result.successful > 0 ∨ ¬ new_urls.isEmpty then
      ⟨scraping_result.status, some scraping_result, ingestStatus, false,
       new_urls.length, true, true⟩
    else
      ⟨scraping_result.status, some scraping_result,
       "skipped_no_successful_scrapes", false, new_urls.length, true, false⟩
  else
    ⟨scraping_result.status, some scraping_result, "auto_ingest_disabled",
     false, new_urls.length, true, false⟩

/-- `run_full_pipeline(force, check_new_urls)` as a function of the
oracle values: `detectResult` is what `detect_new_urls()` returns,
`shouldRun` the `needs_update` component of `should_run_pipeline()`,
`ingestStatus` the status string of `run_ingestion()`. -/
def runFullPipeline (scrape : String → ScrapeOutcome)
    (configUrls : List String) (detectResult : List String)
    (shouldRun : Bool) (autoIngest : Bool) (ingestStatus : String)
    (force : Bool) (check_new_urls : Bool) : PipelineResult :=
  let new_urls := if check_new_urls then detectResult else []
  if ¬ force ∧ new_urls.isEmpty ∧ ¬ shouldRun then
    -- data still fresh and no new URLs: successful no-op
    ⟨"skipped", none, "skipped", true, 0, false, false⟩
  else
    runPipelineStages scrape configUrls new_urls autoIngest ingestStatus

/-! ## `normalize_url` (rag_chain.py)

The helper splits/joins below model `urllib.parse.urlparse` and
`urlunparse` (CPython `urllib/parse.py`): scheme split at the first
`:` when the prefix is a valid scheme, network location up to the first
`/?#` after `//`, fragment at the first `#`, query at the first `?`,
and path parameters split at the first `;` after the last `/` of the
path.  `urlsplit` first removes the unsafe bytes `\t\r\n` and raises
`ValueError` (here `none`) on an unbracketed `[`/`]` in the netloc. -/

/-- Split a list at the first occurrence of `d` (the delimiter removed). -/
def splitFirst (d : Char) : List Char → Option (List Char × List Char)
  | [] => none
  | c :: rest =>
      if c = d then some ([], rest)
      else match splitFirst d rest with
        | some (a, b) => some (c :: a, b)
        | none => none

/-- Split a list at the last occurrence of `d` (the delimiter removed). -/
def splitLast (d : Char) (cs : List Char) : Option (List Char × List Char) :=
  match splitFirst d cs.reverse with
  | some (a, b) => some (b.reverse, a.reverse)
  | none => none

/-- The characters allowed in a URL scheme (`scheme_chars`). -/
def schemeChar (c : Char) : Bool :=
  c.isAlpha || c.isDigit || c = '+' || c = '-' || c = '.'

/-- The unsafe bytes `urlsplit` removes before parsing. -/
def removeUnsafe (cs : List Char) : List Char :=
  cs.filter (fun c => ¬ (c = '\t' ∨ c = '\r' ∨ c = '\n'))

/-- Scheme detection of `urlsplit`: the part before the first `:` when
it is a nonempty run of scheme characters starting with a letter. -/
def splitScheme (cs : List Char) : List Char × List Char :=
  match splitFirst ':' cs with
  | some (before, after) =>
      match before with
      | [] => ([], cs)
      | b :: bs =>
          if b.isAlpha ∧ (b :: bs).all schemeChar then
            ((b :: bs).map Char.toLower, after)
          else ([], cs)
  | none => ([], cs)

/-- A netloc terminator (`_splitnetloc` stops at `/?#`). -/
def netlocStop (c : Char) : Bool := c = '/' || c = '?' || c = '#'

/-- `_splitparams`: split path parameters at the first `;` of the last
path segment. -/
def splitParams (p : List Char) : List Char × List Char :=
  match splitLast '/' p with
  | some (a, b) =>
      match splitFirst ';' b with
      | some (x, y) => (a ++ '/' :: x, y)
      | none => (p, [])
  | none =>
      match splitFirst ';' p with
      | some (x, y) => (x, y)
      | none => (p, [])

structure UrlParts where
  scheme : List Char
  netloc : List Char
  path : List Char
  params : List Char
  query : List Char
  fragment : List Char
  deriving DecidableEq, Repr

/-- `urlparse(url)`: `none` models the raised `ValueError`. -/
def pyUrlparse (cs0 : List Char) : Option UrlParts :=
  let cs := removeUnsafe cs0
  let sr := splitScheme cs
  let scheme := sr.1
  let nr : List Char × List Char :=
    match sr.2 with
    | '/' :: '/' :: r2 =>
        (r2.takeWhile (fun c => ¬ netlocStop c),
         r2.dropWhile (fun c => ¬ netlocStop c))
    | r => ([], r)
  let netloc := nr.1
  if (netloc.contains '[' ) ≠ (netloc.contains ']') then none
  else
    let fr : List Char × List Char :=
      match splitFirst '#' nr.2 with
      | some p => p
      | none => (nr.2, [])
    let qr : List Char × List Char :=
      match splitFirst '?' fr.1 with
      | some p => p
      | none => (fr.1, [])
    let pp := splitParams qr.1
    some ⟨scheme, netloc, pp.1, pp.2, qr.2, fr.2⟩

/-- `urlunparse(parts)` (`urlunparse` rejoins params, then
`urlunsplit`). -/
def pyUrlunparse (r : UrlParts) : List Char :=
  let u0 := r.path ++ (if r.params.isEmpty then [] else ';' :: r.params)
  let u1 :=
    if ¬ r.netloc.isEmpty ∨ u0.take 2 = ['/', '/'] then
      '/' :: '/' :: r.netloc ++
        (if ¬ u0.isEmpty ∧ u0.head? ≠ some '/' then '/' :: u0 else u0)
    else u0
  let u2 := if r.scheme.isEmpty then u1 else r.scheme ++ ':' :: u1
  let u3 := if r.query.isEmpty then u2 else u2 ++ '?' :: r.query
  if r.fragment.isEmpty then u3 else u3 ++ '#' :: r.fragment

/-- The punctuation stripped from the end of a candidate URL
(`url.rstrip('.,;:!?)')`). -/
def trailingPunct : List Char := ['.', ',', ';', ':', '!', '?', ')']

/-- `url.startswith(('http://', 'https://'))`. -/
def startsHttp (cs : List Char) : Bool :=
  cs.take 7 = "http://".toList || cs.take 8 = "https://".toList

/-- `[a-zA-Z0-9]`. -/
def labelChar (c : Char) : Bool := c.isAlpha || c.isDigit

/-- `[a-zA-Z0-9-]`. -/
def labelMidChar (c : Char) : Bool := labelChar c || c = '-'

/-- All suffixes left after matching `[a-zA-Z0-9-]{0,budget}[a-zA-Z0-9]`
at the head (the inner optional group of the domain regex). -/
def optGroupSuffixes : List Char → Nat → List (List Char)
  | [], _ => []
  | c :: rest, budget =>
      (if labelChar c then [rest] else []) ++
        (if budget > 0 ∧ labelMidChar c then optGroupSuffixes rest (budget - 1)
         else [])

/-- All suffixes left after matching one domain label
`[a-zA-Z0-9]([a-zA-Z0-9-]{0,61}[a-zA-Z0-9])?` at the head. -/
def labelSuffixes : List Char → List (List Char)
  | [] => []
  | c :: rest =>
      if labelChar c then rest :: optGroupSuffixes rest 61 else []

/-- Fueled matcher for `(\.label)*\.[a-zA-Z]{2,}` as a prefix; the fuel
(initially the list length) dominates the ≥ 2 characters consumed per
star iteration. -/
def matchDotRest : Nat → List Char → Bool
  | 0, _ => false
  | fuel + 1, cs =>
      match cs with
      | '.' :: rest =>
          (match rest with
           | a :: b :: _ => a.isAlpha && b.isAlpha
           | _ => false)
          || (labelSuffixes rest).any (fun s => matchDotRest fuel s)
      | _ => false

/-- `re.match` of the domain regex
`^[a-zA-Z0-9]([a-zA-Z0-9-]{0,61}[a-zA-Z0-9])?(\.[a-zA-Z0-9]([a-zA-Z0-9-]{0,61}[a-zA-Z0-9])?)*\.[a-zA-Z]{2,}`:
some prefix of the input matches. -/
def domainRegexMatch (cs : List Char) : Bool :=
  (labelSuffixes cs).any (fun s => matchDotRest cs.length s)

/-- `normalize_url(url)` over characters. -/
def normalizeUrlChars (cs : List Char) : Option (List Char) :=
  if cs.isEmpty then none
  else
    let cs1 := stripWs cs
    if cs1.isEmpty then none
    else
      let cs2 := rstripChars trailingPunct cs1
      let withScheme : Option (List Char) :=
        if startsHttp cs2 then some cs2
        else if domainRegexMatch cs2 then some ("https://".toList ++ cs2)
        else none
      match withScheme with
      | none => none
      | some cs3 =>
          match pyUrlparse cs3 with
          | none => none            -- ValueError caught: return None
          | some parts =>
              if parts.netloc.isEmpty then none
              else some (pyUrlunparse parts)

/-- `normalize_url(url)`. -/
def normalize_url (s : String) : Option String :=
  (normalizeUrlChars s.toList).map (fun l => ⟨l⟩)

/-! ## Shared helper lemmas -/

theorem metaGet_map_subst (key : String) (v : PyVal) (m : Meta)
    (h : m.any (fun kv => kv.1 = key) = true) :
    metaGet (m.map (fun kv => if kv.1 = key then (key, v) else kv)) key
      .pyNone = v := by
  induction m with
  | nil => simp at h
  | cons hd tl ih =>
      by_cases hhd : hd.1 = key
      · simp only [List.map_cons, if_pos hhd]
        unfold metaGet
        rw [List.find?_cons_of_pos _ (by simp)]
      · simp only [List.map_cons, if_neg hhd]
        unfold metaGet
        rw [List.find?_cons_of_neg _ (by simp [hhd])]
        have h' : tl.any (fun kv => kv.1 = key) = true := by
          simp only [List.any_cons, Bool.or_eq_true, decide_eq_true_eq] at h
          exact h.resolve_left hhd
        have := ih h'
        unfold metaGet at this
        exact this

theorem metaGet_append_fresh (key : String) (v : PyVal) (m : Meta)
    (h : m.any (fun kv => kv.1 = key) = false) :
    metaGet (m ++ [(key, v)]) key .pyNone = v := by
  induction m with
  | nil =>
      unfold metaGet
      rw [List.nil_append, List.find?_cons_of_pos _ (by simp)]
  | cons hd tl ih =>
      simp only [List.any_cons, Bool.or_eq_false_iff, decide_eq_false_iff_not]
        at h
      unfold metaGet
      rw [List.cons_append, List.find?_cons_of_neg _ (by simp [h.1])]
      have := ih h.2
      unfold metaGet at this
      exact this

theorem metaGet_metaSet (m : Meta) (key : String) (v : PyVal) :
    metaGet (metaSet m key v) key .pyNone = v := by
  unfold metaSet
  by_cases h : m.any (fun kv => kv.1 = key) = true
  · rw [if_pos h]
    exact metaGet_map_subst key v m h
  · rw [if_neg h]
    exact metaGet_append_fresh key v m (by rwa [Bool.not_eq_true] at h)

theorem metaAllScalar_metaSet (m : Meta) (key : String) (v : PyVal)
    (hm : metaAllScalar m = true) (hv : v.isScalar = true) :
    metaAllScalar (metaSet m key v) = true := by
  unfold metaAllScalar at hm ⊢
  unfold metaSet
  by_cases h : m.any (fun kv => kv.1 = key) = true
  · rw [if_pos h]
    simp only [List.all_eq_true] at hm ⊢
    intro kv hkv
    rw [List.mem_map] at hkv
    obtain ⟨orig, hmem, heq⟩ := hkv
    by_cases hk : orig.1 = key
    · rw [if_pos hk] at heq
      rw [← heq]
      exact hv
    · rw [if_neg hk] at heq
      rw [← heq]
      exact hm orig hmem
  · rw [if_neg h]
    simp only [List.all_append, Bool.and_eq_true]
    exact ⟨hm, by simp [hv]⟩

/-! ## Claim C10: empty batches are no-ops -/

/-- Claim C10: calling `upsert_documents` or `add_documents` with an
empty document list returns the empty id list, makes no
embedding-provider calls (`embeddedTexts = []`), and leaves the
collection completely unchanged. -/
theorem claim_C10_empty_batch_noop (embedFn : List String → List (List Int))
    (now : Int) (coll : Collection) (skip_existing : Bool) :
    upsertDocuments embedFn now coll [] skip_existing = ⟨[], coll, []⟩ ∧
    addDocuments embedFn coll [] = ⟨[], coll, []⟩ := by
  constructor <;> rfl

/-! ## Claim C4: freshness window -/

/-- Claim C4: with no chunks (or no usable timestamp metadata) the
freshness check reports `needs_update = true` with no latest timestamp
and no next-update time; otherwise, with `T` the scanned maximum
timestamp and interval `H` hours, `needs_update` is false exactly when
`now < T + H` and true exactly when `now ≥ T + H`, and whenever it is
false the next-update time equals `T + H` (one hour = 3600 ticks). -/
theorem claim_C4_freshness_window (now : Int) (coll : Collection) (H : Int) :
    (coll.docs = [] → checkIfDataNeedsUpdate now coll H = (true, none, none)) ∧
    (getLatestIngestionTimestamp coll = none →
      checkIfDataNeedsUpdate now coll H = (true, none, none)) ∧
    (∀ T, getLatestIngestionTimestamp coll = some T →
      ((checkIfDataNeedsUpdate now coll H).1 = true ↔ now ≥ T + 3600 * H) ∧
      ((checkIfDataNeedsUpdate now coll H).1 = false ↔ now < T + 3600 * H) ∧
      (checkIfDataNeedsUpdate now coll H).2.1 = some T ∧
      ((checkIfDataNeedsUpdate now coll H).1 = false →
        (checkIfDataNeedsUpdate now coll H).2.2 = some (T + 3600 * H))) := by
  refine ⟨?_, ?_, ?_⟩
  · intro h
    have hnone : getLatestIngestionTimestamp coll = none := by
      unfold getLatestIngestionTimestamp
      rw [h]
      rfl
    simp [checkIfDataNeedsUpdate, hnone]
  · intro hnone
    simp [checkIfDataNeedsUpdate, hnone]
  · intro T hT
    simp only [checkIfDataNeedsUpdate, hT, ge_iff_le, decide_eq_true_eq,
      decide_eq_false_iff_not]
    refine ⟨by omega, by omega, by trivial, ?_⟩
    intro h
    rw [if_neg (by omega)]

/-- Witness for C4 at a concrete store: one chunk ingested at tick 1000,
interval 1 hour, queried at tick 2000 (fresh) — `needs_update` is false
and the next update is due at tick 4600. -/
theorem claim_C4_witness :
    (checkIfDataNeedsUpdate 2000
      ⟨[("id0", ⟨[1], "t", [("ingestion_timestamp", .timeStr 1000)]⟩)]⟩ 1).1 =
      false ∧ (checkIfDataNeedsUpdate 2000
      ⟨[("id0", ⟨[1], "t", [("ingestion_timestamp", .timeStr 1000)]⟩)]⟩ 1).2.2 =
      some 4600 := by
  have h := (claim_C4_freshness_window 2000
    ⟨[("id0", ⟨[1], "t", [("ingestion_timestamp", .timeStr 1000)]⟩)]⟩ 1).2.2
    1000 (by decide)
  have h1 := (h.2.1).2 (by omega)
  have h2 := h.2.2.2 h1
  rw [h2]
  exact ⟨h1, by norm_num⟩

/-! ## Claim C7: query classification and retrieval routing -/

/-- Claim C7: query classification is total and defaults to
not-parameter-wide (`(false, none)`) whenever it does not positively
classify; it routes retrieval: "What is the AUM of Fund X?" classifies
as specific-fund and uses similarity search, "Show me AUM for all
funds" classifies as parameter-wide and uses the full-store scan, which
is restricted to chunks carrying a truthy `fund_name`. -/
theorem claim_C7_classification_routing :
    (∀ q : String, isParameterOnlyQuery q = (true, (isParameterOnlyQuery q).2) ∨
      isParameterOnlyQuery q = (false, none)) ∧
    (∀ (q : String) (k : Nat), (isParameterOnlyQuery q).1 = true →
      retrievalRoute q k = .fullScan) ∧
    (∀ (q : String) (k : Nat), (isParameterOnlyQuery q).1 = false →
      retrievalRoute q k = .similarity
        (if pyIn "compare" (pyLower q) || pyIn "multiple" (pyLower q)
         then max k 5 else k)) ∧
    isParameterOnlyQuery "What is the AUM of Fund X?" = (false, none) ∧
    isParameterOnlyQuery "Show me AUM for all funds" = (true, some "aum") ∧
    (∀ k, retrievalRoute "What is the AUM of Fund X?" k = .similarity k) ∧
    (∀ k, retrievalRoute "Show me AUM for all funds" k = .fullScan) ∧
    (∀ (coll : Collection) (d : Doc), d ∈ getAllFunds coll →
      (metaGet d.metadata "fund_name" (.str "")).truthy = true) := by
  have hshape : ∀ q : String,
      isParameterOnlyQuery q = (true, (isParameterOnlyQuery q).2) ∨
      isParameterOnlyQuery q = (false, none) := by
    intro q
    simp only [isParameterOnlyQuery]
    split
    · split
      · left; rfl
      · right; rfl
    · right; rfl
  have hq1 : isParameterOnlyQuery "What is the AUM of Fund X?" =
      (false, none) := by decide
  have hq2 : isParameterOnlyQuery "Show me AUM for all funds" =
      (true, some "aum") := by decide
  refine ⟨hshape, ?_, ?_, hq1, hq2, ?_, ?_, ?_⟩
  · intro q k h
    unfold retrievalRoute
    rw [if_pos h]
  · intro q k h
    unfold retrievalRoute
    rw [if_neg (by simp [h])]
  · intro k
    unfold retrievalRoute
    rw [if_neg (by simp [hq1])]
    have hcmp : (pyIn "compare" (pyLower "What is the AUM of Fund X?") ||
        pyIn "multiple" (pyLower "What is the AUM of Fund X?")) = false := by
      decide
    rw [hcmp]
    rfl
  · intro k
    unfold retrievalRoute
    rw [if_pos (by simp [hq2])]
  · intro coll d hd
    unfold getAllFunds at hd
    rw [List.mem_filterMap] at hd
    obtain ⟨kv, _, hkv⟩ := hd
    by_cases ht : (metaGet kv.2.metadata "fund_name" (.str "")).truthy = true
    · rw [if_pos ht] at hkv
      cases hkv
      exact ht
    · rw [if_neg ht] at hkv
      cases hkv

/-- Witness for C7's conditional conjuncts at the two concrete
questions: the specific-fund question routes to similarity search with
the caller's `k = 4`, the parameter-wide one routes to the full scan. -/
theorem claim_C7_witness :
    retrievalRoute "What is the AUM of Fund X?" 4 = .similarity 4 ∧
    retrievalRoute "Show me AUM for all funds" 4 = .fullScan := by
  exact ⟨claim_C7_classification_routing.2.2.2.2.2.1 4,
    claim_C7_classification_routing.2.2.2.2.2.2.1 4⟩

/-! ## Claim C5: novelty takes priority over staleness -/

/-- Claim C5: with `check_new_urls` enabled, a non-empty novelty result
restricts the run's URL set to exactly the new URLs (independently of
the configured URL set) and skips the staleness check entirely (the
run result does not depend on `should_run_pipeline`); with no new URLs,
`force = False` and fresh data, the run returns status `skipped` with
no side effects — a successful no-op, not an error. -/
theorem claim_C5_novelty_priority (scrape : String → ScrapeOutcome)
    (configUrls detectResult : List String) (shouldRun autoIngest : Bool)
    (ingestStatus : String) (force : Bool) :
    (detectResult ≠ [] →
      (∀ shouldRun2, runFullPipeline scrape configUrls detectResult shouldRun
          autoIngest ingestStatus force true =
        runFullPipeline scrape configUrls detectResult shouldRun2 autoIngest
          ingestStatus force true) ∧
      (runFullPipeline scrape configUrls detectResult shouldRun autoIngest
          ingestStatus force true).scraping =
        some (runScraping scrape configUrls (some detectResult)) ∧
      (∀ cfg2, runScraping scrape configUrls (some detectResult) =
        runScraping scrape cfg2 (some detectResult))) ∧
    (detectResult = [] → shouldRun = false →
      runFullPipeline scrape configUrls detectResult shouldRun autoIngest
        ingestStatus false true =
        ⟨"skipped", none, "skipped", true, 0, false, false⟩) := by
  constructor
  · intro hne
    have hempty : detectResult.isEmpty = false := by
      cases detectResult with
      | nil => exact absurd rfl hne
      | cons h t => rfl
    refine ⟨?_, ?_, ?_⟩
    · intro shouldRun2
      simp [runFullPipeline, hempty]
    · have hstage : ∀ aI,
          (runPipelineStages scrape configUrls detectResult aI
            ingestStatus).scraping =
          some (runScraping scrape configUrls (some detectResult)) := by
        intro aI
        cases aI <;> simp [runPipelineStages, hempty]
      simp [runFullPipeline, hempty, hstage]
    · intro cfg2
      rfl
  · intro hd hsr
    subst hd hsr
    rfl

/-- Witness for C5 at a concrete run: one new URL forces scraping of
exactly that URL regardless of the staleness oracle; no new URLs plus
fresh data yields the skipped no-op result. -/
theorem claim_C5_witness :
    (runFullPipeline (fun _ => .success "f") ["c"] ["n"] true true "success"
        false true =
      runFullPipeline (fun _ => .success "f") ["c"] ["n"] false true "success"
        false true) ∧
    (runFullPipeline (fun _ => .success "f") ["c"] ["n"] true true "success"
        false true).scraping =
      some (runScraping (fun _ => .success "f") ["c"] (some ["n"])) ∧
    runFullPipeline (fun _ => .success "f") ["c"] [] false true "success"
      false true = ⟨"skipped", none, "skipped", true, 0, false, false⟩ := by
  have h := claim_C5_novelty_priority (fun _ => .success "f") ["c"] ["n"] true
    true "success" false
  have h2 := claim_C5_novelty_priority (fun _ => .success "f") ["c"] [] false
    true "success" false
  exact ⟨(h.1 (by decide)).1 false, (h.1 (by decide)).2.1,
    h2.2 rfl rfl⟩

/-! ## Claim C6: per-URL scrape failures never abort the run -/

/-- Claim C6: every (non-empty) URL in the run's set is attempted and
its outcome recorded in order — a raised scrape exception is caught,
never aborting the loop — `successful + failed` accounts for all of
them, and whenever auto-ingest is on and at least one scrape succeeded
the pipeline still proceeds to ingestion; concretely, for 3 URLs where
URL #2 fails the run reports `successful = 2, failed = 1` and ingestion
proceeds. -/
theorem claim_C6_scrape_failures_isolated :
    (∀ (scrape : String → ScrapeOutcome) (urls : List String),
      (∀ u ∈ urls, u ≠ "") →
      scrapeLoop scrape urls =
        urls.map (fun u => (u, scrapeStatus (scrape u)))) ∧
    (∀ (scrape : String → ScrapeOutcome) (cfg urls : List String),
      (∀ u ∈ urls, u ≠ "") →
      (runScraping scrape cfg (some urls)).successful +
        (runScraping scrape cfg (some urls)).failed = urls.length) ∧
    (∀ (scrape : String → ScrapeOutcome) (cfg detect : List String)
        (sR : Bool) (iS : String) (force cnu : Bool) (sr : ScrapingResult),
      (runFullPipeline scrape cfg detect sR true iS force cnu).scraping =
        some sr → sr.successful > 0 →
      (runFullPipeline scrape cfg detect sR true iS force cnu).ranIngestion =
        true) ∧
    (runScraping (fun u => if u = "u2" then .raised "boom" else .success ("f" ++ u))
        [] (some ["u1", "u2", "u3"]) =
      ⟨"completed", 2, 1,
        [("u1", "success"), ("u2", "error"), ("u3", "success")]⟩) ∧
    ((runFullPipeline
        (fun u => if u = "u2" then .raised "boom" else .success ("f" ++ u))
        [] ["u1", "u2", "u3"] false true "success" false true).ranIngestion =
      true) := by
  have hloop : ∀ (scrape : String → ScrapeOutcome) (urls : List String),
      (∀ u ∈ urls, u ≠ "") →
      scrapeLoop scrape urls =
        urls.map (fun u => (u, scrapeStatus (scrape u))) := by
    intro scrape urls h
    induction urls with
    | nil => rfl
    | cons hd tl ih =>
        unfold scrapeLoop
        rw [if_neg (h hd (List.mem_cons_self hd tl))]
        rw [ih (fun u hu => h u (List.mem_cons_of_mem hd hu))]
        rfl
  refine ⟨hloop, ?_, ?_, by decide, by decide⟩
  · intro scrape cfg urls h
    unfold runScraping
    simp only
    rw [hloop scrape urls h]
    have hlen : (urls.map (fun u => (u, scrapeStatus (scrape u)))).length =
        urls.length := List.length_map _ _
    have hle : ((urls.map (fun u => (u, scrapeStatus (scrape u)))).filter
        (fun r => r.2 = "success")).length ≤ urls.length := by
      calc _ ≤ (urls.map (fun u => (u, scrapeStatus (scrape u)))).length :=
            List.length_filter_le _ _
        _ = urls.length := hlen
    rw [hlen]
    omega
  · intro scrape cfg detect sR iS force cnu sr hsc hpos
    simp only [runFullPipeline] at hsc ⊢
    revert hsc
    generalize (if cnu = true then detect else []) = nu
    intro hsc
    split at hsc
    next hskip => exact absurd hsc (by simp)
    next hskip =>
      rw [if_neg hskip]
      simp only [runPipelineStages] at hsc ⊢
      simp only [if_true] at hsc ⊢
      revert hsc
      generalize hgr : runScraping scrape cfg
        (if nu.isEmpty = true then none else some nu) = gr
      intro hsc
      split at hsc
      next hcond => rw [if_pos hcond]
      next hcond =>
        exfalso
        rw [not_or] at hcond
        simp only [Option.some.injEq] at hsc
        rw [← hsc] at hpos
        exact hcond.1 hpos

/-- Witness for C6 at the 3-URL scenario where URL #2 raises: every URL
is attempted in order, the run reports 2 successes and 1 failure, and
the full pipeline still proceeds to ingestion. -/
theorem claim_C6_witness :
    scrapeLoop (fun u => if u = "u2" then .raised "boom" else .success ("f" ++ u))
      ["u1", "u2", "u3"] =
      ["u1", "u2", "u3"].map (fun u =>
        (u, scrapeStatus
          ((fun u => if u = "u2" then .raised "boom" else .success ("f" ++ u))
            u))) ∧
    (runScraping (fun u => if u = "u2" then .raised "boom" else .success ("f" ++ u))
        [] (some ["u1", "u2", "u3"])).successful +
      (runScraping (fun u => if u = "u2" then .raised "boom" else .success ("f" ++ u))
        [] (some ["u1", "u2", "u3"])).failed = 3 ∧
    (runFullPipeline
        (fun u => if u = "u2" then .raised "boom" else .success ("f" ++ u))
        [] ["u1", "u2", "u3"] false true "success" false true).ranIngestion =
      true := by
  refine ⟨?_, ?_, ?_⟩
  · exact claim_C6_scrape_failures_isolated.1 _ _ (by decide)
  · exact claim_C6_scrape_failures_isolated.2.1 _ _ _ (by decide)
  · exact claim_C6_scrape_failures_isolated.2.2.1 _ _ _ false "success" false
      true ⟨"completed", 2, 1,
        [("u1", "success"), ("u2", "error"), ("u3", "success")]⟩
      (by decide) (by decide)

/-! ## Claim C2: quota-aware batch retry policy -/

theorem embedBatchGo_retries (oracle : Nat → EmbedResp) (mr : Nat) (m : String)
    (vs : List (List Int)) (hq : quotaIndicated (pyLower m) = true)
    (hz : hardZeroQuota (pyLower m) = false) :
    ∀ (n rc c0 : Nat) (w0 : List Nat), rc + n ≤ mr →
    (∀ i, i < n → oracle (c0 + i) = .err m) →
    oracle (c0 + n) = .ok vs →
    embedBatchGo oracle mr (mr + 1 - rc) rc c0 w0 =
      ⟨.ok vs, c0 + n + 1, w0 ++ (List.range n).map (fun j => 5 * 2 ^ (rc + j))⟩
    := by
  intro n
  induction n with
  | zero =>
      intro rc c0 w0 hle _ hok
      have hfuel : mr + 1 - rc = (mr - rc) + 1 := by omega
      rw [hfuel]
      simp only [embedBatchGo]
      rw [show c0 + 0 = c0 from rfl] at hok
      rw [hok]
      simp
  | succ n ih =>
      intro rc c0 w0 hle herr hok
      have hfuel : mr + 1 - rc = (mr - rc) + 1 := by omega
      rw [hfuel]
      simp only [embedBatchGo]
      have h0 : oracle c0 = .err m := by
        have := herr 0 (by omega)
        simpa using this
      rw [h0]
      simp only [hq, if_true, hz, Bool.false_eq_true, if_false]
      rw [if_pos (by omega : rc + 1 ≤ mr)]
      have hrec : mr - rc = mr + 1 - (rc + 1) := by omega
      rw [hrec]
      have ihh := ih (rc + 1) (c0 + 1) (w0 ++ [5 * 2 ^ (rc + 1 - 1)])
        (by omega)
        (fun i hi => by
          have := herr (i + 1) (by omega)
          rwa [show c0 + (i + 1) = c0 + 1 + i by omega] at this)
        (by rwa [show c0 + 1 + n = c0 + (n + 1) by omega])
      rw [ihh]
      have hw : (w0 ++ [5 * 2 ^ (rc + 1 - 1)]) ++
          (List.range n).map (fun j => 5 * 2 ^ (rc + 1 + j)) =
          w0 ++ (List.range (n + 1)).map (fun j => 5 * 2 ^ (rc + j)) := by
        rw [List.range_succ_eq_map, List.map_cons, List.map_map,
          List.append_assoc, List.singleton_append]
        have h1 : rc + 1 - 1 = rc + 0 := by omega
        rw [h1]
        congr 1
        congr 1
        apply List.map_congr_left
        intro j _
        simp only [Function.comp]
        congr 1
        congr 1
        omega
      rw [hw]
      congr 1
      omega

theorem embedBatchGo_exhaust (oracle : Nat → EmbedResp) (mr : Nat) (m : String)
    (hq : quotaIndicated (pyLower m) = true)
    (hz : hardZeroQuota (pyLower m) = false) :
    ∀ (k rc c0 : Nat) (w0 : List Nat), rc + k = mr →
    (∀ i, i ≤ k → oracle (c0 + i) = .err m) →
    embedBatchGo oracle mr (mr + 1 - rc) rc c0 w0 =
      ⟨.error m, c0 + k + 1, w0 ++ (List.range k).map (fun j => 5 * 2 ^ (rc + j))⟩
    := by
  intro k
  induction k with
  | zero =>
      intro rc c0 w0 hrc herr
      have hfuel : mr + 1 - rc = (mr - rc) + 1 := by omega
      rw [hfuel]
      simp only [embedBatchGo]
      have h0 : oracle c0 = .err m := by simpa using herr 0 (by omega)
      rw [h0]
      simp only [hq, if_true, hz, Bool.false_eq_true, if_false]
      rw [if_neg (by omega : ¬ rc + 1 ≤ mr)]
      simp
  | succ k ih =>
      intro rc c0 w0 hrc herr
      have hfuel : mr + 1 - rc = (mr - rc) + 1 := by omega
      rw [hfuel]
      simp only [embedBatchGo]
      have h0 : oracle c0 = .err m := by simpa using herr 0 (by omega)
      rw [h0]
      simp only [hq, if_true, hz, Bool.false_eq_true, if_false]
      rw [if_pos (by omega : rc + 1 ≤ mr)]
      have hrec : mr - rc = mr + 1 - (rc + 1) := by omega
      rw [hrec]
      have ihh := ih (rc + 1) (c0 + 1) (w0 ++ [5 * 2 ^ (rc + 1 - 1)])
        (by omega)
        (fun i hi => by
          have := herr (i + 1) (by omega)
          rwa [show c0 + (i + 1) = c0 + 1 + i by omega] at this)
      rw [ihh]
      have hw : (w0 ++ [5 * 2 ^ (rc + 1 - 1)]) ++
          (List.range k).map (fun j => 5 * 2 ^ (rc + 1 + j)) =
          w0 ++ (List.range (k + 1)).map (fun j => 5 * 2 ^ (rc + j)) := by
        rw [List.range_succ_eq_map, List.map_cons, List.map_map,
          List.append_assoc, List.singleton_append]
        have h1 : rc + 1 - 1 = rc + 0 := by omega
        rw [h1]
        congr 1
        congr 1
        apply List.map_congr_left
        intro j _
        simp only [Function.comp]
        congr 1
        congr 1
        omega
      rw [hw]
      congr 1
      omega

theorem embedBatch_immediate_raise (oracle : Nat → EmbedResp) (mr : Nat)
    (m : String) (c0 : Nat) (hor : oracle c0 = .err m)
    (h : quotaIndicated (pyLower m) = false ∨
      hardZeroQuota (pyLower m) = true) :
    embedBatch oracle mr c0 = ⟨.error m, c0 + 1, []⟩ := by
  unfold embedBatch
  show embedBatchGo oracle mr (mr + 1) 0 c0 [] = _
  simp only [embedBatchGo]
  rw [hor]
  by_cases hquota : quotaIndicated (pyLower m) = true
  · have hzero : hardZeroQuota (pyLower m) = true := by
      rcases h with h | h
      · rw [hquota] at h
        cases h
      · exact h
    simp only [hquota, if_true, hzero]
  · have : quotaIndicated (pyLower m) = false := by
      rwa [Bool.not_eq_true] at hquota
    simp only [this, Bool.false_eq_true, if_false]

/-- Claim C2: in batch embedding, a hard zero-remaining-quota error
(e.g. message containing "limit: 0") raises immediately with zero
retries; any other quota-indicating error is retried with exponential
backoff (wait before retry `n` is `5 * 2^(n-1)` seconds) up to
`max_retries` retries, after which the exception is re-raised
(`EmbeddingFailure`); a non-quota error raises immediately; and with
`max_retries = 2`, a batch hitting exactly 2 retryable quota errors and
then succeeding completes successfully. -/
theorem claim_C2_quota_retry_policy :
    (∀ (oracle : Nat → EmbedResp) (mr : Nat) (m : String),
      oracle 0 = .err m → hardZeroQuota (pyLower m) = true →
      embedBatch oracle mr 0 = ⟨.error m, 1, []⟩) ∧
    (∀ (oracle : Nat → EmbedResp) (mr : Nat) (m : String)
        (vs : List (List Int)) (n : Nat),
      quotaIndicated (pyLower m) = true → hardZeroQuota (pyLower m) = false →
      n ≤ mr → (∀ i, i < n → oracle i = .err m) → oracle n = .ok vs →
      embedBatch oracle mr 0 =
        ⟨.ok vs, n + 1, (List.range n).map (fun j => 5 * 2 ^ j)⟩) ∧
    (∀ (oracle : Nat → EmbedResp) (mr : Nat) (m : String),
      quotaIndicated (pyLower m) = true → hardZeroQuota (pyLower m) = false →
      (∀ i, i ≤ mr → oracle i = .err m) →
      embedBatch oracle mr 0 =
        ⟨.error m, mr + 1, (List.range mr).map (fun j => 5 * 2 ^ j)⟩) ∧
    (∀ (oracle : Nat → EmbedResp) (mr : Nat) (m : String),
      oracle 0 = .err m → quotaIndicated (pyLower m) = false →
      embedBatch oracle mr 0 = ⟨.error m, 1, []⟩) ∧
    batchEmbedDocuments
      (fun i => if i < 2 then .err "429 quota" else .ok [[7]]) ["t"] 10 2 =
      (.ok [[7]], 3, [[5, 10]]) := by
  refine ⟨?_, ?_, ?_, ?_, rfl⟩
  · intro oracle mr m hor hz
    exact embedBatch_immediate_raise oracle mr m 0 hor (Or.inr hz)
  · intro oracle mr m vs n hq hz hn herr hok
    have h := embedBatchGo_retries oracle mr m vs hq hz n 0 0 []
      (by omega) (fun i hi => by simpa using herr i hi) (by simpa using hok)
    rw [show mr + 1 - 0 = mr + 1 by omega] at h
    unfold embedBatch
    rw [h]
    simp
  · intro oracle mr m hq hz herr
    have h := embedBatchGo_exhaust oracle mr m hq hz mr 0 0 []
      (by omega) (fun i hi => by simpa using herr i hi)
    rw [show mr + 1 - 0 = mr + 1 by omega] at h
    unfold embedBatch
    rw [h]
    simp
  · intro oracle mr m hor hq
    exact embedBatch_immediate_raise oracle mr m 0 hor (Or.inl hq)

/-- Witness for C2 at concrete oracles with `max_retries = 2`: a
hard-zero-quota message raises with no retries; two retryable 429s then
success yields the embeddings after backoffs of 5 s and 10 s; constant
429s exhaust the retries and raise; a non-quota error raises at once. -/
theorem claim_C2_witness :
    embedBatch (fun _ => .err "429 quota (limit: 0)") 2 0 =
      ⟨.error "429 quota (limit: 0)", 1, []⟩ ∧
    embedBatch (fun i => if i < 2 then .err "429 quota" else .ok [[7]]) 2 0 =
      ⟨.ok [[7]], 3, [5, 10]⟩ ∧
    embedBatch (fun _ => .err "429 quota") 2 0 =
      ⟨.error "429 quota", 3, [5, 10]⟩ ∧
    embedBatch (fun _ => .err "boom") 2 0 = ⟨.error "boom", 1, []⟩ := by
  refine ⟨?_, ?_, ?_, ?_⟩
  · exact claim_C2_quota_retry_policy.1 (fun _ => .err "429 quota (limit: 0)")
      2 "429 quota (limit: 0)" rfl (by decide)
  · have h := claim_C2_quota_retry_policy.2.1
      (fun i => if i < 2 then .err "429 quota" else .ok [[7]]) 2 "429 quota"
      [[7]] 2 (by decide) (by decide) (by decide) (by decide) (by decide)
    rw [h]
    rfl
  · have h := claim_C2_quota_retry_policy.2.2.1 (fun _ => .err "429 quota") 2
      "429 quota" (by decide) (by decide) (fun i _ => rfl)
    rw [h]
    rfl
  · exact claim_C2_quota_retry_policy.2.2.2.1 (fun _ => .err "boom") 2 "boom"
      rfl (by decide)

/-! ## Claim C3: URL novelty detection -/

/-- The claim's literal reading of `findNew` (refinement comparison):
return exactly those candidates whose normalized form is absent from the
stored set of normalized `source_url` values, originals and order
preserved — with no further conditions on the candidate. -/
def specFindNewUrls (coll : Collection) (config_urls : List String) :
    List String :=
  config_urls.filter (fun url =>
    !(getExistingUrls coll).contains (normalizeUrlKey url))

/-- Claim C3 counterexample: the candidate `"/"` normalizes to the empty
string, which is absent from an empty store, so the claim as stated
requires `find_new_urls` to return it; the code's
`if normalized and normalized not in existing_urls` guard (and the
`if not url: continue` guard for the empty-string candidate) drops it
instead. -/
theorem claim_C3_counterexample :
    findNewUrls Collection.empty ["/"] = [] ∧
    specFindNewUrls Collection.empty ["/"] = ["/"] ∧
    findNewUrls Collection.empty ["/"] ≠
      specFindNewUrls Collection.empty ["/"] := by
  refine ⟨rfl, rfl, ?_⟩
  decide

/-- Claim C3 (amended): `find_new_urls` returns exactly those candidates
that are non-empty, have a non-empty normalized form (trimmed,
trailing-slash stripped, lower-cased), and whose normalized form is
absent from the stored normalized `source_url` values — preserving each
returned candidate's original string and the caller's order (the result
is a sublist of the input); in particular, with stored identities
`{A, B}` and candidates `[A, B, C]` differing only by trailing slash or
case, it returns exactly `[C]`. -/
theorem claim_C3_find_new_urls (coll : Collection) (urls : List String) :
    findNewUrls coll urls = urls.filter (fun url =>
      decide (url ≠ "") && decide (normalizeUrlKey url ≠ "") &&
      !(getExistingUrls coll).contains (normalizeUrlKey url)) ∧
    (findNewUrls coll urls).Sublist urls ∧
    findNewUrls
      ⟨[("a0", ⟨[1], "docA", [("source_url", .str "https://x.com/A")]⟩),
        ("b0", ⟨[2], "docB", [("source_url", .str "https://x.com/B/")]⟩)]⟩
      ["https://x.com/a/", "HTTPS://X.com/B", "https://x.com/C"] =
      ["https://x.com/C"] := by
  have hchar : ∀ (ex us : List String), findNewUrlsGo ex us =
      us.filter (fun url =>
        decide (url ≠ "") && decide (normalizeUrlKey url ≠ "") &&
        !ex.contains (normalizeUrlKey url)) := by
    intro ex us
    induction us with
    | nil => rfl
    | cons u t ih =>
        unfold findNewUrlsGo
        by_cases h1 : u = ""
        · subst h1
          rw [if_pos rfl, ih]
          simp
        · rw [if_neg h1]
          by_cases h2 : normalizeUrlKey u ≠ "" ∧
              ¬ ex.contains (normalizeUrlKey u) = true
          · rw [if_pos h2, ih]
            rw [List.filter_cons_of_pos]
            simp only [Bool.and_eq_true, decide_eq_true_eq]
            refine ⟨⟨h1, h2.1⟩, ?_⟩
            simpa using h2.2
          · rw [if_neg h2, ih]
            rw [List.filter_cons_of_neg]
            intro hpred
            apply h2
            simp only [Bool.and_eq_true, decide_eq_true_eq,
              Bool.not_eq_true'] at hpred
            exact ⟨hpred.1.2, by simpa using hpred.2⟩
  refine ⟨hchar (getExistingUrls coll) urls, ?_, by decide⟩
  rw [show findNewUrls coll urls = findNewUrlsGo (getExistingUrls coll) urls
    from rfl, hchar]
  exact List.filter_sublist urls

/-! ## Claim C9: scalar-only metadata on the write paths -/

theorem metaAllScalar_filter (md : Meta) :
    metaAllScalar (md.filter (fun kv => kv.2.isScalar)) = true := by
  unfold metaAllScalar
  rw [List.all_eq_true]
  intro kv hkv
  exact (List.mem_filter.mp hkv).2

theorem cleanMetadata_scalar (md : Meta) (ts : Int) :
    metaAllScalar (cleanMetadata md ts) = true :=
  metaAllScalar_metaSet _ _ _ (metaAllScalar_filter md) rfl

/-- Claim C9 counterexample: `add_documents` hands the raw metadata
dicts to `collection.add` without the scalar-only cleaning, so a
document carrying a non-scalar `json_data` value is stored with that
value intact — the invariant is not enforced on the add write path. -/
theorem claim_C9_counterexample :
    ((addDocuments (fun ts => ts.map (fun _ => [0])) Collection.empty
        [⟨"text", [("json_data", .obj 0)]⟩]).coll.docs.all
      (fun kv => metaAllScalar kv.2.metadata)) = false := by
  decide

/-- Claim C9 (amended): the upsert write path does enforce the §3
scalar-only metadata invariant — non-scalar fields are dropped from new
documents before writing, and the metadata-only refresh of existing
documents preserves it — but `add_documents` stores raw metadata
unchanged (see the counterexample), so the invariant holds for every
collection written exclusively through `upsert_documents`. -/
theorem claim_C9_upsert_scalar_invariant
    (embedFn : List String → List (List Int)) (now : Int)
    (coll : Collection) (documents : List Doc) (skip_existing : Bool)
    (hcoll : ∀ kv ∈ coll.docs, metaAllScalar kv.2.metadata = true) :
    ∀ kv ∈ (upsertDocuments embedFn now coll documents skip_existing).coll.docs,
      metaAllScalar kv.2.metadata = true := by
  have hrefresh : ∀ (ids2 : List String) kv,
      kv ∈ (refreshExistingMetadata coll now ids2).docs →
      metaAllScalar kv.2.metadata = true := by
    intro ids2 kv hkv
    unfold refreshExistingMetadata Collection.updateMetadatas at hkv
    simp only [List.mem_map] at hkv
    obtain ⟨orig, horig, heq⟩ := hkv
    rcases hfind : (ids2.filterMap (fun id =>
        match coll.lookup id with
        | some sd =>
            some (id, metaSet sd.metadata "ingestion_timestamp" (.timeStr now))
        | none => none)).find? (fun u => u.1 = orig.1) with _ | u
    · rw [hfind] at heq
      rw [← heq]
      exact hcoll orig horig
    · rw [hfind] at heq
      have humem := List.mem_of_find?_eq_some hfind
      rw [List.mem_filterMap] at humem
      obtain ⟨id, _, hid⟩ := humem
      rcases hlook : coll.lookup id with _ | sd
      · rw [hlook] at hid
        cases hid
      · rw [hlook] at hid
        have hsd : metaAllScalar sd.metadata = true := by
          unfold Collection.lookup at hlook
          rcases hfind2 : coll.docs.find? (fun kv => kv.1 = id) with _ | kv2
          · rw [hfind2] at hlook
            cases hlook
          · rw [hfind2] at hlook
            cases hlook
            exact hcoll kv2 (List.mem_of_find?_eq_some hfind2)
        have hu2 : u.2 = metaSet sd.metadata "ingestion_timestamp"
            (.timeStr now) := by
          cases hid
          rfl
        rw [← heq]
        simp only [hu2]
        exact metaAllScalar_metaSet _ _ _ hsd rfl
  have hentries : ∀ (nd : List Doc) (ni : List String) e,
      e ∈ upsertEntries embedFn now nd ni →
      metaAllScalar e.2.metadata = true := by
    intro nd ni e he
    unfold upsertEntries at he
    have h2 := (List.of_mem_zip he).2
    rw [List.mem_map] at h2
    obtain ⟨tr, htr, heq⟩ := h2
    have h3 := (List.of_mem_zip htr).2
    have h4 := (List.of_mem_zip h3).2
    rw [List.mem_map] at h4
    obtain ⟨d, _, hd⟩ := h4
    rw [← heq]
    simp only
    rw [← hd]
    exact cleanMetadata_scalar d.metadata now
  unfold upsertDocuments
  by_cases hempty : documents.isEmpty = true
  · rw [if_pos hempty]
    exact hcoll
  · rw [if_neg hempty]
    simp only
    by_cases hnew : (((documents.zip (docIds documents)).filter
        (fun p => ¬ (if skip_existing then coll.ids else []).contains p.2)).map
          Prod.fst).isEmpty = true
    · rw [if_pos hnew]
      exact hrefresh _
    · rw [if_neg hnew]
      intro kv hkv
      unfold Collection.upsert at hkv
      rw [List.mem_append] at hkv
      rcases hkv with hkv | hkv
      · rw [List.mem_map] at hkv
        obtain ⟨orig, horig, heq⟩ := hkv
        rcases hfind : (upsertEntries embedFn now _ _).find?
            (fun e => e.1 = orig.1) with _ | e
        · rw [hfind] at heq
          rw [← heq]
          exact hrefresh _ orig horig
        · rw [hfind] at heq
          rw [← heq]
          exact hentries _ _ e (List.mem_of_find?_eq_some hfind)
      · exact hentries _ _ kv (List.mem_filter.mp hkv).1

/-- Witness for C9's amended theorem: upserting a document whose
metadata carries a non-scalar `json_data` value into an empty store
yields a collection whose stored metadata is scalar-only. -/
theorem claim_C9_witness :
    ((upsertDocuments (fun ts => ts.map (fun _ => [0])) 5 Collection.empty
        [⟨"text", [("json_data", .obj 0), ("fund_name", .str "F")]⟩]
        true).coll.docs.all (fun kv => metaAllScalar kv.2.metadata)) = true := by
  rw [List.all_eq_true]
  intro kv hkv
  exact claim_C9_upsert_scalar_invariant (fun ts => ts.map (fun _ => [0])) 5
    Collection.empty [⟨"text", [("json_data", .obj 0), ("fund_name", .str "F")]⟩]
    true (by intro kv2 h2; cases h2) kv hkv

/-! ## Claim C1: lookup lemmas for the collection operations -/

theorem find?_append_split {α : Type} (l1 l2 : List α) (p : α → Bool) :
    (l1 ++ l2).find? p =
      match l1.find? p with
      | some x => some x
      | none => l2.find? p := by
  induction l1 with
  | nil => rfl
  | cons x t ih =>
      rw [List.cons_append]
      by_cases hx : p x = true
      · rw [List.find?_cons_of_pos _ hx, List.find?_cons_of_pos _ hx]
      · rw [List.find?_cons_of_neg _ (by simpa using hx),
          List.find?_cons_of_neg _ (by simpa using hx), ih]

theorem find?_filter_of_imp {α : Type} (l : List α) (p q : α → Bool)
    (h : ∀ x, p x = true → q x = true) :
    (l.filter q).find? p = l.find? p := by
  induction l with
  | nil => rfl
  | cons x t ih =>
      by_cases hq : q x = true
      · rw [List.filter_cons_of_pos hq]
        by_cases hx : p x = true
        · rw [List.find?_cons_of_pos _ hx, List.find?_cons_of_pos _ hx]
        · rw [List.find?_cons_of_neg _ (by simpa using hx),
            List.find?_cons_of_neg _ (by simpa using hx), ih]
      · rw [List.filter_cons_of_neg (by simpa using hq)]
        have hx : p x = false := by
          by_contra hcon
          rw [Bool.not_eq_false] at hcon
          exact hq (h x hcon)
        rw [List.find?_cons_of_neg _ (by simp [hx]), ih]

theorem findKey_map_keyPreserving {β γ : Type}
    (l : List (String × β)) (f : (String × β) → (String × γ))
    (hf : ∀ kv, (f kv).1 = kv.1) (id : String) :
    (l.map f).find? (fun kv => kv.1 = id) =
      (l.find? (fun kv => kv.1 = id)).map f := by
  induction l with
  | nil => rfl
  | cons kv t ih =>
      rw [List.map_cons]
      by_cases hk : kv.1 = id
      · rw [List.find?_cons_of_pos _ (by simp [hf, hk]),
          List.find?_cons_of_pos _ (by simp [hk])]
        rfl
      · rw [List.find?_cons_of_neg _ (by simp [hf, hk]),
          List.find?_cons_of_neg _ (by simp [hk]), ih]

theorem mem_keys_iff_lookup (c : Collection) (id : String) :
    id ∈ c.ids ↔ ∃ sd, c.lookup id = some sd := by
  unfold Collection.ids Collection.lookup
  constructor
  · intro hmem
    rw [List.mem_map] at hmem
    obtain ⟨kv, hkv, hk⟩ := hmem
    have : (c.docs.find? (fun kv => kv.1 = id)).isSome = true := by
      rw [List.find?_isSome]
      exact ⟨kv, hkv, by simp [hk]⟩
    rcases hfind : c.docs.find? (fun kv => kv.1 = id) with _ | kv2
    · rw [hfind] at this
      cases this
    · exact ⟨kv2.2, by rw [hfind]⟩
  · intro ⟨sd, hsd⟩
    rcases hfind : c.docs.find? (fun kv => kv.1 = id) with _ | kv2
    · rw [hfind] at hsd
      cases hsd
    · have hmem := List.mem_of_find?_eq_some hfind
      have hk := List.find?_some hfind
      simp only [decide_eq_true_eq] at hk
      rw [List.mem_map]
      exact ⟨kv2, hmem, hk⟩

theorem ids_contains_eq_lookup (c : Collection) (id : String) :
    c.ids.contains id = (c.lookup id).isSome := by
  by_cases h : id ∈ c.ids
  · obtain ⟨sd, hsd⟩ := (mem_keys_iff_lookup c id).mp h
    rw [hsd]
    simpa using h
  · have : c.lookup id = none := by
      rcases hl : c.lookup id with _ | sd
      · rfl
      · exact absurd ((mem_keys_iff_lookup c id).mpr ⟨sd, hl⟩) h
    rw [this]
    simpa using h

theorem lookup_updateMetadatas (c : Collection)
    (upds : List (String × Meta)) (id : String) :
    (c.updateMetadatas upds).lookup id =
      match c.lookup id with
      | some sd => some (match upds.find? (fun u => u.1 = id) with
          | some u => ⟨sd.embedding, sd.document, u.2⟩
          | none => sd)
      | none => none := by
  unfold Collection.updateMetadatas Collection.lookup
  rw [findKey_map_keyPreserving _ _
    (fun kv => by
      rcases h : upds.find? (fun u => u.1 = kv.1) with _ | u <;> simp [h])]
  rcases hfind : c.docs.find? (fun kv => kv.1 = id) with _ | kv
  · rw [hfind]
    rfl
  · rw [hfind]
    have hk := List.find?_some hfind
    simp only [decide_eq_true_eq] at hk
    simp only [Option.map]
    rw [hk]
    rcases hup : upds.find? (fun u => u.1 = id) with _ | u <;> rw [hup] <;> rfl

theorem lookup_upsert (c : Collection) (es : List (String × StoredDoc))
    (id : String) :
    (c.upsert es).lookup id =
      match c.lookup id with
      | some sd => some (match es.find? (fun e => e.1 = id) with
          | some e => e.2
          | none => sd)
      | none => (match es.find? (fun e => e.1 = id) with
          | some e => some e.2
          | none => none) := by
  unfold Collection.upsert Collection.lookup
  simp only
  rw [find?_append_split]
  rw [findKey_map_keyPreserving _ _
    (fun kv => by
      rcases h : es.find? (fun e => e.1 = kv.1) with _ | e
      · simp [h]
      · have he := List.find?_some h
        simp only [decide_eq_true_eq] at he
        simp [h, he])]
  rcases hfind : c.docs.find? (fun kv => kv.1 = id) with _ | kv
  · rw [hfind]
    simp only [Option.map]
    have hfresh : ∀ e : String × StoredDoc,
        (fun e : String × StoredDoc => decide (e.1 = id)) e = true →
        (fun e : String × StoredDoc =>
          decide ¬ c.docs.any (fun kv => kv.1 = e.1) = true) e = true := by
      intro e he
      simp only [decide_eq_true_eq] at he ⊢
      rw [he]
      intro hany
      rw [List.any_eq_true] at hany
      obtain ⟨kv, hkv, hk⟩ := hany
      simp only [decide_eq_true_eq] at hk
      have := List.find?_eq_none.mp hfind kv hkv
      simp only [decide_eq_true_eq] at this
      exact this hk
    rw [find?_filter_of_imp _ _ _ hfresh]
  · rw [hfind]
    have hk := List.find?_some hfind
    simp only [decide_eq_true_eq] at hk
    simp only [Option.map]
    rw [hk]
    rcases hes : es.find? (fun e => e.1 = id) with _ | e <;> rw [hes] <;> rfl

theorem ifTrueEq {α : Type} (a b : α) : (if (true = true) then a else b) = a :=
  if_pos rfl

theorem refresh_upds_find (coll : Collection) (now : Int) :
    ∀ (upIds : List String) (id : String) (sd : StoredDoc),
    coll.lookup id = some sd → id ∈ upIds →
    (upIds.filterMap (fun id2 =>
      match coll.lookup id2 with
      | some sd2 => some (id2,
          metaSet sd2.metadata "ingestion_timestamp" (.timeStr now))
      | none => none)).find? (fun u => u.1 = id) =
      some (id, metaSet sd.metadata "ingestion_timestamp" (.timeStr now)) := by
  intro upIds
  induction upIds with
  | nil => intro id sd _ hmem; cases hmem
  | cons j t ih =>
      intro id sd hsd hmem
      rw [List.filterMap_cons]
      by_cases hj : j = id
      · subst hj
        rw [hsd]
        simp only
        rw [List.find?_cons_of_pos _ (by simp)]
      · have hmem2 : id ∈ t := by
          rcases List.mem_cons.mp hmem with h | h
          · exact absurd h.symm hj
          · exact h
        rcases hj2 : coll.lookup j with _ | sdj
        · simp only
          exact ih id sd hsd hmem2
        · simp only
          rw [List.find?_cons_of_neg _ (by simp [hj])]
          exact ih id sd hsd hmem2

theorem lookup_refreshExisting (coll : Collection) (now : Int)
    (upIds : List String) (id : String) (sd : StoredDoc)
    (hsd : coll.lookup id = some sd) (hmem : id ∈ upIds) :
    (refreshExistingMetadata coll now upIds).lookup id =
      some ⟨sd.embedding, sd.document,
        metaSet sd.metadata "ingestion_timestamp" (.timeStr now)⟩ := by
  unfold refreshExistingMetadata
  rw [lookup_updateMetadatas, hsd, refresh_upds_find coll now upIds id sd hsd hmem]

theorem lookup_refreshExisting_of_some (coll : Collection) (now : Int)
    (upIds : List String) (id : String) (sd : StoredDoc)
    (hsd : coll.lookup id = some sd) :
    ∃ sd2, (refreshExistingMetadata coll now upIds).lookup id = some sd2 ∧
      sd2.embedding = sd.embedding ∧ sd2.document = sd.document := by
  unfold refreshExistingMetadata
  rw [lookup_updateMetadatas, hsd]
  rcases hup : List.find? (fun u => u.1 = id) (upIds.filterMap (fun id2 =>
      match coll.lookup id2 with
      | some sd2 => some (id2,
          metaSet sd2.metadata "ingestion_timestamp" (PyVal.timeStr now))
      | none => none)) with _ | u
  · exact ⟨sd, rfl, rfl, rfl⟩
  · exact ⟨⟨sd.embedding, sd.document, u.2⟩, rfl, rfl, rfl⟩

theorem findKey_of_mem_keys {β : Type} (l : List (String × β)) (id : String)
    (hmem : id ∈ l.map Prod.fst) :
    ∃ e, l.find? (fun e => e.1 = id) = some e ∧ e ∈ l ∧ e.1 = id := by
  have hsome : (l.find? (fun e => e.1 = id)).isSome = true := by
    rw [List.find?_isSome]
    rw [List.mem_map] at hmem
    obtain ⟨kv, hkv, hk⟩ := hmem
    exact ⟨kv, hkv, by simp [hk]⟩
  rcases hf : l.find? (fun e => e.1 = id) with _ | e
  · rw [hf] at hsome
    cases hsome
  · refine ⟨e, hf, List.mem_of_find?_eq_some hf, ?_⟩
    have := List.find?_some hf
    simpa using this

theorem upsertEntries_length (embedFn : List String → List (List Int))
    (now : Int) (nd : List Doc) (ni : List String)
    (hE : (embedFn (nd.map Doc.page_content)).length = nd.length)
    (hlen : ni.length = nd.length) :
    (upsertEntries embedFn now nd ni).map Prod.fst = ni := by
  unfold upsertEntries
  apply List.map_fst_zip
  rw [List.length_map, List.length_zip, List.length_zip, List.length_map,
    List.length_map, hE, hlen]
  simp

theorem upsertEntries_values (embedFn : List String → List (List Int))
    (now : Int) (nd : List Doc) (ni : List String) (e : String × StoredDoc)
    (he : e ∈ upsertEntries embedFn now nd ni) :
    ∃ d ∈ nd, e.2.metadata = cleanMetadata d.metadata now := by
  unfold upsertEntries at he
  have h2 := (List.of_mem_zip he).2
  rw [List.mem_map] at h2
  obtain ⟨tr, htr, heq⟩ := h2
  have h3 := (List.of_mem_zip htr).2
  have h4 := (List.of_mem_zip h3).2
  rw [List.mem_map] at h4
  obtain ⟨d, hd, hdm⟩ := h4
  exact ⟨d, hd, by rw [← heq]; simp only; rw [← hdm]⟩

theorem exists_mem_zip_right {α β : Type} :
    ∀ (l1 : List α) (l2 : List β) (b : β), l1.length = l2.length → b ∈ l2 →
    ∃ a, (a, b) ∈ l1.zip l2 := by
  intro l1
  induction l1 with
  | nil =>
      intro l2 b h hb
      cases l2 with
      | nil => cases hb
      | cons x t => simp at h
  | cons a t1 ih =>
      intro l2 b h hb
      cases l2 with
      | nil => cases hb
      | cons b2 t2 =>
          rcases List.mem_cons.mp hb with h1 | h1
          · exact ⟨a, by simp [h1]⟩
          · obtain ⟨x, hx⟩ := ih t2 b (by simpa using h) h1
            exact ⟨x, List.mem_cons_of_mem _ hx⟩

theorem docIds_length (documents : List Doc) :
    (docIds documents).length = documents.length := by
  simp [docIds]

/-- After one `upsert_documents(..., skip_existing=True)` call, every id
of the batch is stored, its `ingestion_timestamp` equals the call
instant, and an id that already existed kept its vector and text, with
only the metadata replaced. -/
theorem upsert_lookup_full (embedFn : List String → List (List Int))
    (now : Int) (coll : Collection) (documents : List Doc)
    (hE : ∀ ts, (embedFn ts).length = ts.length)
    (id : String) (hid : id ∈ docIds documents) :
    ∃ sd, (upsertDocuments embedFn now coll documents true).coll.lookup id =
        some sd ∧
      metaGet sd.metadata "ingestion_timestamp" .pyNone = .timeStr now ∧
      (∀ sd0, coll.lookup id = some sd0 →
        sd = ⟨sd0.embedding, sd0.document,
          metaSet sd0.metadata "ingestion_timestamp" (.timeStr now)⟩) := by
  have hne : documents ≠ [] := by
    intro h
    rw [h] at hid
    cases hid
  have hne2 : documents.isEmpty = false := by
    cases documents with
    | nil => exact absurd rfl hne
    | cons d t => rfl
  unfold upsertDocuments
  rw [if_neg (by rw [hne2]; exact Bool.false_ne_true)]
  simp only [ifTrueEq, if_true]
  rcases hsd0 : coll.lookup id with _ | sd0
  -- fresh id: embedded and upserted
  · have hcont : coll.ids.contains id = false := by
      rw [ids_contains_eq_lookup, hsd0]
      rfl
    have hzip : ∃ d, (d, id) ∈ documents.zip (docIds documents) :=
      exists_mem_zip_right documents (docIds documents) id
        (docIds_length documents).symm hid
    obtain ⟨d, hdzip⟩ := hzip
    have hpair : (d, id) ∈ (documents.zip (docIds documents)).filter
        (fun p => ¬ coll.ids.contains p.2) := by
      rw [List.mem_filter]
      refine ⟨hdzip, ?_⟩
      simp only [decide_eq_true_eq]
      intro hmem
      rw [hcont] at hmem
      cases hmem
    have hidnew : id ∈ ((documents.zip (docIds documents)).filter
        (fun p => ¬ coll.ids.contains p.2)).map Prod.snd := by
      rw [List.mem_map]
      exact ⟨(d, id), hpair, rfl⟩
    have hnonempty : (((documents.zip (docIds documents)).filter
        (fun p => ¬ coll.ids.contains p.2)).map Prod.fst).isEmpty = false := by
      rcases hl : (documents.zip (docIds documents)).filter
          (fun p => ¬ coll.ids.contains p.2) with _ | ⟨p, t⟩
      · rw [hl] at hpair
        cases hpair
      · rw [hl]
        rfl
    rw [if_neg (by rw [hnonempty]; exact Bool.false_ne_true)]
    simp only
    -- the refreshed collection still lacks the fresh id
    have hcoll1 : (refreshExistingMetadata coll now
        ((docIds documents).filter
          (fun id2 => coll.ids.contains id2))).lookup id = none := by
      unfold refreshExistingMetadata
      rw [lookup_updateMetadatas, hsd0]
    rw [lookup_upsert, hcoll1]
    -- the upsert entries carry the fresh id
    have hkeys : (upsertEntries embedFn now
        (((documents.zip (docIds documents)).filter
          (fun p => ¬ coll.ids.contains p.2)).map Prod.fst)
        (((documents.zip (docIds documents)).filter
          (fun p => ¬ coll.ids.contains p.2)).map Prod.snd)).map Prod.fst =
        ((documents.zip (docIds documents)).filter
          (fun p => ¬ coll.ids.contains p.2)).map Prod.snd := by
      apply upsertEntries_length
      · rw [hE, List.length_map]
      · rw [List.length_map, List.length_map]
    obtain ⟨e, hefind, hemem, hekey⟩ := findKey_of_mem_keys _ id
      (by rw [hkeys]; exact hidnew)
    rw [hefind]
    obtain ⟨d2, _, hd2⟩ := upsertEntries_values _ _ _ _ e hemem
    refine ⟨e.2, rfl, ?_, ?_⟩
    · rw [hd2]
      unfold cleanMetadata
      exact metaGet_metaSet _ _ _
    · intro sd1 h1
      exact Option.noConfusion h1
  -- existing id: metadata-only refresh
  · have hcont : coll.ids.contains id = true := by
      rw [ids_contains_eq_lookup, hsd0]
      rfl
    have hmemupd : id ∈ (docIds documents).filter
        (fun id2 => coll.ids.contains id2) := by
      rw [List.mem_filter]
      exact ⟨hid, hcont⟩
    have hcoll1 : (refreshExistingMetadata coll now
        ((docIds documents).filter
          (fun id2 => coll.ids.contains id2))).lookup id =
        some ⟨sd0.embedding, sd0.document,
          metaSet sd0.metadata "ingestion_timestamp" (.timeStr now)⟩ :=
      lookup_refreshExisting coll now _ id sd0 hsd0 hmemupd
    by_cases hnew : (((documents.zip (docIds documents)).filter
        (fun p => ¬ coll.ids.contains p.2)).map Prod.fst).isEmpty = true
    · rw [if_pos hnew]
      simp only
      refine ⟨_, hcoll1, ?_, ?_⟩
      · exact metaGet_metaSet _ _ _
      · intro sd1 h1
        rw [Option.some.injEq] at h1
        subst h1
        rfl
    · rw [if_neg hnew]
      simp only
      rw [lookup_upsert, hcoll1]
      -- the id is not among the upserted (new) entries
      have hnofind : (upsertEntries embedFn now
          (((documents.zip (docIds documents)).filter
            (fun p => ¬ coll.ids.contains p.2)).map Prod.fst)
          (((documents.zip (docIds documents)).filter
            (fun p => ¬ coll.ids.contains p.2)).map Prod.snd)).find?
          (fun e => e.1 = id) = none := by
      -- any found entry would be a fresh id, contradicting hcont
        rcases hf : (upsertEntries embedFn now
            (((documents.zip (docIds documents)).filter
              (fun p => ¬ coll.ids.contains p.2)).map Prod.fst)
            (((documents.zip (docIds documents)).filter
              (fun p => ¬ coll.ids.contains p.2)).map Prod.snd)).find?
            (fun e => e.1 = id) with _ | e
        · exact hf
        · exfalso
          have hekey := List.find?_some hf
          simp only [decide_eq_true_eq] at hekey
          have hemem := List.mem_of_find?_eq_some hf
          have hkeys : (upsertEntries embedFn now
              (((documents.zip (docIds documents)).filter
                (fun p => ¬ coll.ids.contains p.2)).map Prod.fst)
              (((documents.zip (docIds documents)).filter
                (fun p => ¬ coll.ids.contains p.2)).map Prod.snd)).map
              Prod.fst =
              ((documents.zip (docIds documents)).filter
                (fun p => ¬ coll.ids.contains p.2)).map Prod.snd := by
            apply upsertEntries_length
            · rw [hE, List.length_map]
            · rw [List.length_map, List.length_map]
          have : id ∈ ((documents.zip (docIds documents)).filter
              (fun p => ¬ coll.ids.contains p.2)).map Prod.snd := by
            rw [← hkeys, List.mem_map]
            exact ⟨e, hemem, hekey⟩
          rw [List.mem_map] at this
          obtain ⟨p, hp, hpid⟩ := this
          have := (List.mem_filter.mp hp).2
          rw [hpid] at this
          simp only [hcont] at this
          cases this
      rw [hnofind]
      refine ⟨_, rfl, ?_, ?_⟩
      · exact metaGet_metaSet _ _ _
      · intro sd1 h1
        rw [Option.some.injEq] at h1
        subst h1
        rfl

theorem upsertDocuments_ids (embedFn : List String → List (List Int))
    (now : Int) (coll : Collection) (documents : List Doc)
    (skip_existing : Bool) (h : documents.isEmpty = false) :
    (upsertDocuments embedFn now coll documents skip_existing).ids =
      docIds documents := by
  unfold upsertDocuments
  rw [if_neg (by rw [h]; exact Bool.false_ne_true)]
  simp only
  split <;> split <;> rfl

theorem upsertDocuments_embeddedTexts (embedFn : List String → List (List Int))
    (now : Int) (coll : Collection) (documents : List Doc)
    (h : documents.isEmpty = false) :
    (upsertDocuments embedFn now coll documents true).embeddedTexts =
      ((documents.zip (docIds documents)).filter
        (fun p => ¬ coll.ids.contains p.2)).map (fun p => p.1.page_content) := by
  unfold upsertDocuments
  rw [if_neg (by rw [h]; exact Bool.false_ne_true)]
  simp only [ifTrueEq, if_true]
  split
  next hnew =>
    rw [List.isEmpty_iff_eq_nil, List.map_eq_nil] at hnew
    rw [hnew]
    rfl
  next hnew =>
    simp only
    rw [List.map_map]
    rfl

theorem upsertDocuments_all_existing (embedFn : List String → List (List Int))
    (now : Int) (coll : Collection) (documents : List Doc)
    (h : documents.isEmpty = false)
    (hall : ∀ p ∈ documents.zip (docIds documents),
      coll.ids.contains p.2 = true) :
    upsertDocuments embedFn now coll documents true =
      ⟨docIds documents,
       refreshExistingMetadata coll now
         ((docIds documents).filter (fun id => coll.ids.contains id)),
       []⟩ := by
  unfold upsertDocuments
  rw [if_neg (by rw [h]; exact Bool.false_ne_true)]
  simp only [ifTrueEq, if_true]
  have hfil : (documents.zip (docIds documents)).filter
      (fun p => ¬ coll.ids.contains p.2) = [] := by
    rw [List.filter_eq_nil]
    intro p hp
    simp only [decide_eq_true_eq]
    rw [hall p hp]
    simp
  rw [hfil]
  rfl

/-- Claim C1: for every non-empty batch, `upsert_documents` with
`skip_existing=True` returns the full id list (one id per document, in
input order); the embedding provider is called exactly on the texts of
the documents whose id is not yet stored; a document whose id already
exists gets a metadata-only update that keeps its vector and text and
refreshes `ingestion_timestamp`; and upserting the same batch twice
yields the same ids, makes no provider call the second time, leaves
stored vector and text unchanged, and strictly increases
`ingestion_timestamp` between the calls. -/
theorem claim_C1_upsert_skip_existing
    (embedFn : List String → List (List Int)) (now1 now2 : Int)
    (coll : Collection) (documents : List Doc)
    (hE : ∀ ts, (embedFn ts).length = ts.length)
    (hdocs : documents ≠ []) (hnow : now1 < now2) :
    (upsertDocuments embedFn now1 coll documents true).ids =
      docIds documents ∧
    (docIds documents).length = documents.length ∧
    (upsertDocuments embedFn now1 coll documents true).embeddedTexts =
      ((documents.zip (docIds documents)).filter
        (fun p => ¬ coll.ids.contains p.2)).map (fun p => p.1.page_content) ∧
    (∀ id sd0, id ∈ docIds documents → coll.lookup id = some sd0 →
      (upsertDocuments embedFn now1 coll documents true).coll.lookup id =
        some ⟨sd0.embedding, sd0.document,
          metaSet sd0.metadata "ingestion_timestamp" (.timeStr now1)⟩) ∧
    (upsertDocuments embedFn now2
        (upsertDocuments embedFn now1 coll documents true).coll documents
        true).ids =
      (upsertDocuments embedFn now1 coll documents true).ids ∧
    (upsertDocuments embedFn now2
        (upsertDocuments embedFn now1 coll documents true).coll documents
        true).embeddedTexts = [] ∧
    (∀ id, id ∈ docIds documents → ∃ sd1 sd2,
      (upsertDocuments embedFn now1 coll documents true).coll.lookup id =
        some sd1 ∧
      (upsertDocuments embedFn now2
          (upsertDocuments embedFn now1 coll documents true).coll documents
          true).coll.lookup id = some sd2 ∧
      sd2.embedding = sd1.embedding ∧ sd2.document = sd1.document ∧
      metaGet sd1.metadata "ingestion_timestamp" .pyNone = .timeStr now1 ∧
      metaGet sd2.metadata "ingestion_timestamp" .pyNone = .timeStr now2 ∧
      now1 < now2) := by
  have hne2 : documents.isEmpty = false := by
    cases documents with
    | nil => exact absurd rfl hdocs
    | cons d t => rfl
  have hall : ∀ p ∈ documents.zip (docIds documents),
      (upsertDocuments embedFn now1 coll documents true).coll.ids.contains
        p.2 = true := by
    intro p hp
    have hid : p.2 ∈ docIds documents := (List.of_mem_zip hp).2
    obtain ⟨sd, hsd, _, _⟩ := upsert_lookup_full embedFn now1 coll documents
      hE p.2 hid
    rw [ids_contains_eq_lookup, hsd]
    rfl
  have hr2eq := upsertDocuments_all_existing embedFn now2
    (upsertDocuments embedFn now1 coll documents true).coll documents hne2 hall
  refine ⟨upsertDocuments_ids embedFn now1 coll documents true hne2,
    docIds_length documents,
    upsertDocuments_embeddedTexts embedFn now1 coll documents hne2,
    ?_, ?_, ?_, ?_⟩
  · intro id sd0 hid hsd0
    obtain ⟨sd, hsd, _, hex⟩ := upsert_lookup_full embedFn now1 coll documents
      hE id hid
    rw [hsd, hex sd0 hsd0]
  · rw [hr2eq, upsertDocuments_ids embedFn now1 coll documents true hne2]
  · rw [hr2eq]
  · intro id hid
    obtain ⟨sd1, hsd1, hts1, _⟩ := upsert_lookup_full embedFn now1 coll
      documents hE id hid
    have hidmem : id ∈ (docIds documents).filter
        (fun id2 => (upsertDocuments embedFn now1 coll documents
          true).coll.ids.contains id2) := by
      rw [List.mem_filter]
      refine ⟨hid, ?_⟩
      rw [ids_contains_eq_lookup, hsd1]
      rfl
    have hlook2 := lookup_refreshExisting
      (upsertDocuments embedFn now1 coll documents true).coll now2 _ id sd1
      hsd1 hidmem
    refine ⟨sd1, ⟨sd1.embedding, sd1.document,
      metaSet sd1.metadata "ingestion_timestamp" (.timeStr now2)⟩,
      hsd1, ?_, rfl, rfl, hts1, metaGet_metaSet _ _ _, hnow⟩
    rw [hr2eq]
    exact hlook2

/-- Witness for C1 at a one-document batch into an empty store: both
calls return the id `"f_0_0"`, the second call makes no provider calls,
and the stored vector/text survive while the timestamp moves from 10
to 20. -/
theorem claim_C1_witness :
    (upsertDocuments (fun ts => ts.map (fun _ => [1])) 10 Collection.empty
      [⟨"hello", [("source_file", .str "f"), ("chunk_index", .int 0)]⟩]
      true).ids = ["f_0_0"] ∧
    (upsertDocuments (fun ts => ts.map (fun _ => [1])) 20
      (upsertDocuments (fun ts => ts.map (fun _ => [1])) 10 Collection.empty
        [⟨"hello", [("source_file", .str "f"), ("chunk_index", .int 0)]⟩]
        true).coll
      [⟨"hello", [("source_file", .str "f"), ("chunk_index", .int 0)]⟩]
      true).embeddedTexts = [] ∧
    (∃ sd1 sd2,
      (upsertDocuments (fun ts => ts.map (fun _ => [1])) 10 Collection.empty
        [⟨"hello", [("source_file", .str "f"), ("chunk_index", .int 0)]⟩]
        true).coll.lookup "f_0_0" = some sd1 ∧
      (upsertDocuments (fun ts => ts.map (fun _ => [1])) 20
        (upsertDocuments (fun ts => ts.map (fun _ => [1])) 10 Collection.empty
          [⟨"hello", [("source_file", .str "f"), ("chunk_index", .int 0)]⟩]
          true).coll
        [⟨"hello", [("source_file", .str "f"), ("chunk_index", .int 0)]⟩]
        true).coll.lookup "f_0_0" = some sd2 ∧
      sd2.embedding = sd1.embedding ∧ sd2.document = sd1.document ∧
      metaGet sd1.metadata "ingestion_timestamp" .pyNone = .timeStr 10 ∧
      metaGet sd2.metadata "ingestion_timestamp" .pyNone = .timeStr 20 ∧
      (10 : Int) < 20) := by
  have h := claim_C1_upsert_skip_existing (fun ts => ts.map (fun _ => [1]))
    10 20 Collection.empty
    [⟨"hello", [("source_file", .str "f"), ("chunk_index", .int 0)]⟩]
    (fun ts => List.length_map ts _) (by decide) (by decide)
  refine ⟨?_, h.2.2.2.2.2.1, h.2.2.2.2.2.2 "f_0_0" (by decide)⟩
  rw [h.1]
  decide

/-! ## Claim C8: lemmas about the URL split/join helpers -/

theorem splitFirst_eq_some (d : Char) :
    ∀ (cs a b : List Char), splitFirst d cs = some (a, b) →
    cs = a ++ d :: b ∧ d ∉ a := by
  intro cs
  induction cs with
  | nil => intro a b h; cases h
  | cons c t ih =>
      intro a b h
      unfold splitFirst at h
      by_cases hc : c = d
      · rw [if_pos hc] at h
        cases h
        simpa using hc
      · rw [if_neg hc] at h
        rcases ht : splitFirst d t with _ | ⟨a2, b2⟩
        · rw [ht] at h
          cases h
        · rw [ht] at h
          cases h
          obtain ⟨h1, h2⟩ := ih a2 b ht
          constructor
          · rw [List.cons_append, h1]
          · simp only [List.mem_cons]
            rintro (h3 | h3)
            · exact hc h3.symm
            · exact h2 h3

theorem splitFirst_eq_none (d : Char) :
    ∀ (cs : List Char), splitFirst d cs = none → d ∉ cs := by
  intro cs
  induction cs with
  | nil => intro _ h; cases h
  | cons c t ih =>
      intro h
      unfold splitFirst at h
      by_cases hc : c = d
      · rw [if_pos hc] at h
        cases h
      · rw [if_neg hc] at h
        rcases ht : splitFirst d t with _ | p
        · simp only [List.mem_cons]
          rintro (h3 | h3)
          · exact hc h3.symm
          · exact ih ht h3
        · rw [ht] at h
          cases h

theorem splitFirst_append (d : Char) :
    ∀ (a b : List Char), d ∉ a → splitFirst d (a ++ d :: b) = some (a, b) := by
  intro a
  induction a with
  | nil => intro b _; simp [splitFirst]
  | cons c t ih =>
      intro b hd
      rw [List.cons_append]
      unfold splitFirst
      rw [if_neg (by
        intro hc
        exact hd (by simp [hc]))]
      rw [ih b (fun h => hd (List.mem_cons_of_mem c h))]

theorem splitFirst_not_mem (d : Char) :
    ∀ (cs : List Char), d ∉ cs → splitFirst d cs = none := by
  intro cs
  induction cs with
  | nil => intro _; rfl
  | cons c t ih =>
      intro hd
      unfold splitFirst
      rw [if_neg (by intro hc; exact hd (by simp [hc]))]
      rw [ih (fun h => hd (List.mem_cons_of_mem c h))]

theorem splitLast_eq_some (d : Char) (cs a b : List Char)
    (h : splitLast d cs = some (a, b)) : cs = a ++ d :: b ∧ d ∉ b := by
  unfold splitLast at h
  rcases hf : splitFirst d cs.reverse with _ | ⟨x, y⟩
  · rw [hf] at h
    cases h
  · rw [hf] at h
    cases h
    obtain ⟨h1, h2⟩ := splitFirst_eq_some d cs.reverse x y hf
    constructor
    · have := congrArg List.reverse h1
      rw [List.reverse_reverse] at this
      rw [this]
      simp
    · intro hmem
      exact h2 (by simpa using hmem)

theorem splitLast_not_mem (d : Char) (cs : List Char) (h : d ∉ cs) :
    splitLast d cs = none := by
  unfold splitLast
  rw [splitFirst_not_mem d cs.reverse (by simpa using h)]

theorem splitLast_append (d : Char) (a b : List Char) (h : d ∉ b) :
    splitLast d (a ++ d :: b) = some (a, b) := by
  unfold splitLast
  have : (a ++ d :: b).reverse = b.reverse ++ d :: a.reverse := by
    simp
  rw [this, splitFirst_append d b.reverse a.reverse (by simpa using h)]
  simp

/-- `urlunparse`'s re-joining of path and params
(`url = "%s;%s" % (url, params)` when params is nonempty). -/
def joinParams (path params : List Char) : List Char :=
  path ++ (if params.isEmpty then [] else ';' :: params)

theorem joinParams_nil (a : List Char) : joinParams a [] = a := by
  unfold joinParams
  simp

theorem joinParams_ne_nil (a b : List Char) (h : b ≠ []) :
    joinParams a b = a ++ ';' :: b := by
  unfold joinParams
  rw [if_neg (by simpa [List.isEmpty_iff_eq_nil] using h)]

theorem splitParams_shape (p a b : List Char) (h : splitParams p = (a, b)) :
    (p = a ∧ b = []) ∨ p = a ++ ';' :: b := by
  unfold splitParams at h
  split at h
  next x y hl =>
    split at h
    next x2 y2 hf =>
      cases h
      obtain ⟨hy, _⟩ := splitFirst_eq_some ';' y x2 b hf
      obtain ⟨hp, _⟩ := splitLast_eq_some '/' p x y hl
      right
      rw [hp, hy]
      simp
    next hf =>
      cases h
      exact Or.inl ⟨rfl, rfl⟩
  next hl =>
    split at h
    next x2 y2 hf =>
      cases h
      exact Or.inr (splitFirst_eq_some ';' p a b hf).1
    next hf =>
      cases h
      exact Or.inl ⟨rfl, rfl⟩

theorem splitLast_eq_none (d : Char) (cs : List Char)
    (h : splitLast d cs = none) : d ∉ cs := by
  unfold splitLast at h
  rcases hf : splitFirst d cs.reverse with _ | p
  · have := splitFirst_eq_none d cs.reverse hf
    intro hmem
    exact this (by simpa using hmem)
  · rw [hf] at h
    cases h

/-- Re-splitting the re-joined path;params of a `splitParams` result
recovers it (`_splitparams` is stable under `urlunparse`'s rejoin). -/
theorem splitParams_join (p a b : List Char) (h : splitParams p = (a, b)) :
    splitParams (joinParams a b) = (a, b) := by
  unfold splitParams at h
  split at h
  -- p = x ++ '/' :: y with y slash-free
  next x y hl =>
    obtain ⟨hp, hy⟩ := splitLast_eq_some '/' p x y hl
    split at h
    next x2 y2 hf =>
      cases h
      obtain ⟨hyy, hsemi⟩ := splitFirst_eq_some ';' y x2 b hf
      have hsx2 : '/' ∉ x2 := fun hm => hy (by rw [hyy]; simp [hm])
      have hsb : '/' ∉ b := fun hm => hy (by rw [hyy]; simp [hm])
      by_cases hb : b = []
      · subst hb
        rw [joinParams_nil]
        unfold splitParams
        rw [splitLast_append '/' x x2 hsx2]
        simp only []
        rw [splitFirst_not_mem ';' x2 hsemi]
      · rw [joinParams_ne_nil _ _ hb]
        unfold splitParams
        have hassoc : (x ++ '/' :: x2) ++ ';' :: b =
            x ++ '/' :: (x2 ++ ';' :: b) := by
          simp
        rw [hassoc]
        rw [splitLast_append '/' x (x2 ++ ';' :: b)
          (by
            simp only [List.mem_append, List.mem_cons]
            rintro (hm | hm | hm)
            · exact hsx2 hm
            · cases hm
            · exact hsb hm)]
        simp only []
        rw [splitFirst_append ';' x2 b hsemi]
    next hf =>
      cases h
      rw [joinParams_nil]
      unfold splitParams
      rw [hl]
      simp only []
      simp only [hf]
  -- no '/' in p
  next hl =>
    have hslash : '/' ∉ p := splitLast_eq_none '/' p hl
    split at h
    next x2 y2 hf =>
      cases h
      obtain ⟨hp, hsemi⟩ := splitFirst_eq_some ';' p a b hf
      have hsa : '/' ∉ a := fun hm => hslash (by rw [hp]; simp [hm])
      have hsb : '/' ∉ b := fun hm => hslash (by rw [hp]; simp [hm])
      by_cases hb : b = []
      · subst hb
        rw [joinParams_nil]
        unfold splitParams
        rw [splitLast_not_mem '/' a hsa]
        simp only []
        rw [splitFirst_not_mem ';' a hsemi]
      · rw [joinParams_ne_nil _ _ hb]
        unfold splitParams
        rw [splitLast_not_mem '/' (a ++ ';' :: b)
          (by
            simp only [List.mem_append, List.mem_cons]
            rintro (hm | hm | hm)
            · exact hsa hm
            · cases hm
            · exact hsb hm)]
        simp only []
        rw [splitFirst_append ';' a b hsemi]
    next hf =>
      cases h
      rw [joinParams_nil]
      unfold splitParams
      rw [hl]
      simp only []
      simp only [hf]

theorem takeWhile_dropWhile_append {α : Type} (p : α → Bool) :
    ∀ (a b : List α), (∀ c ∈ a, p c = true) →
    (b = [] ∨ ∃ c t, b = c :: t ∧ p c = false) →
    (a ++ b).takeWhile p = a ∧ (a ++ b).dropWhile p = b := by
  intro a
  induction a with
  | nil =>
      intro b _ hb
      rcases hb with rfl | ⟨c, t, rfl, hc⟩
      · exact ⟨rfl, rfl⟩
      · rw [List.nil_append]
        exact ⟨List.takeWhile_cons_of_neg (by simp [hc]),
          List.dropWhile_cons_of_neg (by simp [hc])⟩
  | cons x xs ih =>
      intro b ha hb
      have hx : p x = true := ha x (List.mem_cons_self x xs)
      obtain ⟨ih1, ih2⟩ :=
        ih b (fun c hc => ha c (List.mem_cons_of_mem x hc)) hb
      rw [List.cons_append]
      constructor
      · rw [List.takeWhile_cons_of_pos hx, ih1]
      · rw [List.dropWhile_cons_of_pos hx, ih2]

theorem dropWhile_head_cases {α : Type} (p : α → Bool) :
    ∀ (l : List α), l.dropWhile p = [] ∨
      ∃ c t, l.dropWhile p = c :: t ∧ p c = false := by
  intro l
  induction l with
  | nil => exact Or.inl rfl
  | cons x xs ih =>
      by_cases hx : p x = true
      · rw [List.dropWhile_cons_of_pos hx]
        exact ih
      · rw [List.dropWhile_cons_of_neg hx]
        exact Or.inr ⟨x, xs, rfl, by simpa using hx⟩

theorem mem_takeWhile_mem {α : Type} (p : α → Bool) :
    ∀ (l : List α) (x : α), x ∈ l.takeWhile p → x ∈ l := by
  intro l
  induction l with
  | nil => intro x h; cases h
  | cons c t ih =>
      intro x h
      by_cases hc : p c = true
      · rw [List.takeWhile_cons_of_pos hc] at h
        rcases List.mem_cons.mp h with rfl | h2
        · exact List.mem_cons_self _ _
        · exact List.mem_cons_of_mem c (ih x h2)
      · rw [List.takeWhile_cons_of_neg hc] at h
        cases h

theorem mem_dropWhile_mem {α : Type} (p : α → Bool) :
    ∀ (l : List α) (x : α), x ∈ l.dropWhile p → x ∈ l := by
  intro l
  induction l with
  | nil => intro x h; cases h
  | cons c t ih =>
      intro x h
      by_cases hc : p c = true
      · rw [List.dropWhile_cons_of_pos hc] at h
        exact List.mem_cons_of_mem c (ih x h)
      · rw [List.dropWhile_cons_of_neg hc] at h
        exact h

theorem lstripChars_cons_keep (set : List Char) (c : Char) (t : List Char)
    (h : set.contains c = false) : lstripChars set (c :: t) = c :: t := by
  unfold lstripChars
  exact List.dropWhile_cons_of_neg (by simpa using h)

theorem rstripChars_keep (set : List Char) (cs : List Char) (c : Char)
    (hlast : cs.getLast? = some c) (h : set.contains c = false) :
    rstripChars set cs = cs := by
  unfold rstripChars
  rcases hrev : cs.reverse with _ | ⟨x, t⟩
  · rw [List.reverse_eq_nil_iff] at hrev
    subst hrev
    cases hlast
  · have hx : x = c := by
      have h1 : cs.reverse.head? = some x := by rw [hrev]; rfl
      rw [List.head?_reverse, hlast] at h1
      exact (Option.some.inj h1).symm
    subst hx
    have hd : List.dropWhile (fun c => set.contains c) (x :: t) = x :: t :=
      List.dropWhile_cons_of_neg (by simpa using h)
    rw [hd, ← hrev, List.reverse_reverse]

theorem removeUnsafe_eq_self (cs : List Char)
    (h : ∀ c ∈ cs, ¬ (c = '\t' ∨ c = '\r' ∨ c = '\n')) :
    removeUnsafe cs = cs := by
  unfold removeUnsafe
  rw [List.filter_eq_self]
  intro a ha
  simpa using h a ha

theorem mem_removeUnsafe (cs : List Char) (c : Char)
    (h : c ∈ removeUnsafe cs) : ¬ (c = '\t' ∨ c = '\r' ∨ c = '\n') := by
  unfold removeUnsafe at h
  have := (List.mem_filter.mp h).2
  simpa using this

theorem netlocStop_cases (c : Char) (h : netlocStop c = true) :
    c = '/' ∨ c = '?' ∨ c = '#' := by
  unfold netlocStop at h
  simpa [or_assoc] using h

theorem head?_append_left {α : Type} (a b : List α) (h : a ≠ []) :
    (a ++ b).head? = a.head? := by
  cases a with
  | nil => cases h rfl
  | cons c t => rfl

theorem mem_ite_nil_cons {c d : Char} {P : Prop} [Decidable P] {l : List Char}
    (hm : c ∈ (if P then ([] : List Char) else d :: l)) : c = d ∨ c ∈ l := by
  split at hm
  · cases hm
  · exact List.mem_cons.mp hm

/-- The fragment/query/params stage of `urlsplit`/`urlparse` applied to
what is left of the input after the netloc (definitionally the tail end
of `pyUrlparse`, split out so the stages can be reasoned about
separately). -/
def restStage (nrest : List Char) : List Char × List Char × List Char × List Char :=
  let fr : List Char × List Char :=
    match splitFirst '#' nrest with
    | some p => p
    | none => (nrest, [])
  let qr : List Char × List Char :=
    match splitFirst '?' fr.1 with
    | some p => p
    | none => (fr.1, [])
  let pp := splitParams qr.1
  (pp.1, pp.2, qr.2, fr.2)

/-- `pyUrlparse` specialised to an input that starts with an
`http://`-style scheme prefix: the scheme always parses off, and the
rest goes through the netloc and `restStage` stages. -/
def parseTail (sch tail : List Char) : Option UrlParts :=
  let r2 := removeUnsafe tail
  let netloc := r2.takeWhile (fun c => ¬ netlocStop c)
  let nrest := r2.dropWhile (fun c => ¬ netlocStop c)
  if (netloc.contains '[' ) ≠ (netloc.contains ']') then none
  else
    let s := restStage nrest
    some ⟨sch, netloc, s.1, s.2.1, s.2.2.1, s.2.2.2⟩

theorem pyUrlparse_shaped (sch tail : List Char)
    (hsch : sch = "http".toList ∨ sch = "https".toList) :
    pyUrlparse (sch ++ ':' :: '/' :: '/' :: tail) = parseTail sch tail := by
  rcases hsch with rfl | rfl <;> rfl

/-- Facts delivered by the `_splitparams` stage: stability under the
`urlunparse` rejoin, head shape, and containment in the source. -/
theorem splitParamsStage (q1 path params : List Char)
    (h : splitParams q1 = (path, params))
    (hq1 : q1 = [] ∨ q1.head? = some '/') :
    splitParams (joinParams path params) = (path, params) ∧
    (path = [] ∨ path.head? = some '/') ∧
    (path = [] → params = []) ∧
    (∀ c, c ∈ path ∨ c ∈ params → c ∈ q1) := by
  refine ⟨splitParams_join q1 path params h, ?_, ?_, ?_⟩
  · rcases splitParams_shape q1 path params h with ⟨hq, hb⟩ | hq
    · subst hq
      exact hq1
    · by_cases hp : path = []
      · exact Or.inl hp
      · right
        rcases path with _ | ⟨c, t⟩
        · exact absurd rfl hp
        · have hh : q1.head? = some c := by rw [hq]; rfl
          rcases hq1 with h0 | h0
          · rw [h0] at hh
            simp at hh
          · rw [h0] at hh
            have hc : c = '/' := (Option.some.inj hh).symm
            rw [hc]
            rfl
  · intro hp
    rcases splitParams_shape q1 path params h with ⟨hq, hb⟩ | hq
    · exact hb
    · subst hp
      rw [List.nil_append] at hq
      rcases hq1 with h0 | h0
      · rw [h0] at hq
        cases hq
      · rw [hq] at h0
        exact absurd (Option.some.inj h0) (by decide)
  · intro c hc
    rcases splitParams_shape q1 path params h with ⟨hq, hb⟩ | hq
    · subst hq
      rcases hc with hc | hc
      · exact hc
      · rw [hb] at hc
        cases hc
    · rw [hq]
      rcases hc with hc | hc
      · exact List.mem_append_left _ hc
      · exact List.mem_append_right _ (List.mem_cons_of_mem _ hc)

/-- If the path source is a nonempty prefix chain of the post-netloc
rest (whose head, if any, is a stop character) and contains neither `?`
nor `#`, its head can only be `/`. -/
theorem q1_head_case (nrest q1 : List Char)
    (hhead : nrest = [] ∨ ∃ t, nrest = '/' :: t ∨ nrest = '?' :: t ∨ nrest = '#' :: t)
    (hpre : ∀ c t, q1 = c :: t → nrest.head? = some c)
    (hq : '?' ∉ q1) (hh : '#' ∉ q1) :
    q1 = [] ∨ q1.head? = some '/' := by
  rcases q1 with _ | ⟨c, t⟩
  · exact Or.inl rfl
  · right
    have hnh := hpre c t rfl
    rcases hhead with h0 | ⟨t0, h0 | h0 | h0⟩
    · rw [h0] at hnh
      simp at hnh
    · rw [h0] at hnh
      have hc : c = '/' := (Option.some.inj hnh).symm
      rw [hc]
      rfl
    · rw [h0] at hnh
      have hc : c = '?' := (Option.some.inj hnh).symm
      subst hc
      exact absurd (List.mem_cons_self _ _) hq
    · rw [h0] at hnh
      have hc : c = '#' := (Option.some.inj hnh).symm
      subst hc
      exact absurd (List.mem_cons_self _ _) hh

/-- Invariants established by the fragment/query/params stage of the
parser, given that what follows the netloc is empty or starts with a
stop character. -/
theorem restStage_inv (nrest path params query fragment : List Char)
    (hhead : nrest = [] ∨ ∃ t, nrest = '/' :: t ∨ nrest = '?' :: t ∨ nrest = '#' :: t)
    (h : restStage nrest = (path, params, query, fragment)) :
    splitParams (joinParams path params) = (path, params) ∧
    (path = [] ∨ path.head? = some '/') ∧
    (path = [] → params = []) ∧
    '#' ∉ path ∧ '#' ∉ params ∧ '#' ∉ query ∧
    '?' ∉ path ∧ '?' ∉ params ∧
    (∀ c, c ∈ path ∨ c ∈ params ∨ c ∈ query ∨ c ∈ fragment → c ∈ nrest) := by
  simp only [restStage] at h
  rcases hfr : splitFirst '#' nrest with _ | ⟨f1, f2⟩
  · rw [hfr] at h
    simp only [] at h
    have hnrh : '#' ∉ nrest := splitFirst_eq_none '#' nrest hfr
    rcases hfq : splitFirst '?' nrest with _ | ⟨q1, q2⟩
    · rw [hfq] at h
      simp only [] at h
      have hnq : '?' ∉ nrest := splitFirst_eq_none '?' nrest hfq
      rcases hsp : splitParams nrest with ⟨a, b⟩
      rw [hsp] at h
      simp only [] at h
      injection h with h1 h'
      injection h' with h2 h''
      injection h'' with h3 h4
      subst h1
      subst h2
      subst h3
      subst h4
      have hq1 : nrest = [] ∨ nrest.head? = some '/' := by
        rcases hhead with h0 | ⟨t0, h0 | h0 | h0⟩
        · exact Or.inl h0
        · right
          rw [h0]
          rfl
        · exact absurd (by rw [h0]; exact List.mem_cons_self _ _) hnq
        · exact absurd (by rw [h0]; exact List.mem_cons_self _ _) hnrh
      obtain ⟨s1, s2, s3, s4⟩ := splitParamsStage nrest a b hsp hq1
      refine ⟨s1, s2, s3, ?_, ?_, ?_, ?_, ?_, ?_⟩
      · exact fun hm => hnrh (s4 '#' (Or.inl hm))
      · exact fun hm => hnrh (s4 '#' (Or.inr hm))
      · exact List.not_mem_nil _
      · exact fun hm => hnq (s4 '?' (Or.inl hm))
      · exact fun hm => hnq (s4 '?' (Or.inr hm))
      · intro c hc
        rcases hc with hc | hc | hc | hc
        · exact s4 c (Or.inl hc)
        · exact s4 c (Or.inr hc)
        · cases hc
        · cases hc
    · rw [hfq] at h
      simp only [] at h
      obtain ⟨hn1, hn2⟩ := splitFirst_eq_some '?' nrest q1 q2 hfq
      rcases hsp : splitParams q1 with ⟨a, b⟩
      rw [hsp] at h
      simp only [] at h
      injection h with h1 h'
      injection h' with h2 h''
      injection h'' with h3 h4
      subst h1
      subst h2
      subst h3
      subst h4
      have hq1h : q1 = [] ∨ q1.head? = some '/' := by
        refine q1_head_case nrest q1 hhead ?_ hn2 ?_
        · intro c t hct
          rw [hn1, hct]
          rfl
        · exact fun hm => hnrh (by rw [hn1]; exact List.mem_append_left _ hm)
      obtain ⟨s1, s2, s3, s4⟩ := splitParamsStage q1 a b hsp hq1h
      refine ⟨s1, s2, s3, ?_, ?_, ?_, ?_, ?_, ?_⟩
      · intro hm
        refine hnrh ?_
        rw [hn1]
        exact List.mem_append_left _ (s4 '#' (Or.inl hm))
      · intro hm
        refine hnrh ?_
        rw [hn1]
        exact List.mem_append_left _ (s4 '#' (Or.inr hm))
      · intro hm
        refine hnrh ?_
        rw [hn1]
        exact List.mem_append_right _ (List.mem_cons_of_mem _ hm)
      · exact fun hm => hn2 (s4 '?' (Or.inl hm))
      · exact fun hm => hn2 (s4 '?' (Or.inr hm))
      · intro c hc
        rcases hc with hc | hc | hc | hc
        · rw [hn1]
          exact List.mem_append_left _ (s4 c (Or.inl hc))
        · rw [hn1]
          exact List.mem_append_left _ (s4 c (Or.inr hc))
        · rw [hn1]
          exact List.mem_append_right _ (List.mem_cons_of_mem _ hc)
        · cases hc
  · rw [hfr] at h
    simp only [] at h
    obtain ⟨hm1, hm2⟩ := splitFirst_eq_some '#' nrest f1 f2 hfr
    rcases hfq : splitFirst '?' f1 with _ | ⟨q1, q2⟩
    · rw [hfq] at h
      simp only [] at h
      have hnq : '?' ∉ f1 := splitFirst_eq_none '?' f1 hfq
      rcases hsp : splitParams f1 with ⟨a, b⟩
      rw [hsp] at h
      simp only [] at h
      injection h with h1 h'
      injection h' with h2 h''
      injection h'' with h3 h4
      subst h1
      subst h2
      subst h3
      subst h4
      have hq1h : f1 = [] ∨ f1.head? = some '/' := by
        refine q1_head_case nrest f1 hhead ?_ hnq hm2
        intro c t hct
        rw [hm1, hct]
        rfl
      obtain ⟨s1, s2, s3, s4⟩ := splitParamsStage f1 a b hsp hq1h
      refine ⟨s1, s2, s3, ?_, ?_, ?_, ?_, ?_, ?_⟩
      · exact fun hm => hm2 (s4 '#' (Or.inl hm))
      · exact fun hm => hm2 (s4 '#' (Or.inr hm))
      · exact List.not_mem_nil _
      · exact fun hm => hnq (s4 '?' (Or.inl hm))
      · exact fun hm => hnq (s4 '?' (Or.inr hm))
      · intro c hc
        rcases hc with hc | hc | hc | hc
        · rw [hm1]
          exact List.mem_append_left _ (s4 c (Or.inl hc))
        · rw [hm1]
          exact List.mem_append_left _ (s4 c (Or.inr hc))
        · cases hc
        · rw [hm1]
          exact List.mem_append_right _ (List.mem_cons_of_mem _ hc)
    · rw [hfq] at h
      simp only [] at h
      obtain ⟨hn1, hn2⟩ := splitFirst_eq_some '?' f1 q1 q2 hfq
      rcases hsp : splitParams q1 with ⟨a, b⟩
      rw [hsp] at h
      simp only [] at h
      injection h with h1 h'
      injection h' with h2 h''
      injection h'' with h3 h4
      subst h1
      subst h2
      subst h3
      subst h4
      have hq1hash : '#' ∉ q1 := fun hm =>
        hm2 (by rw [hn1]; exact List.mem_append_left _ hm)
      have hq1h : q1 = [] ∨ q1.head? = some '/' := by
        refine q1_head_case nrest q1 hhead ?_ hn2 hq1hash
        intro c t hct
        rw [hm1, hn1, hct]
        rfl
      obtain ⟨s1, s2, s3, s4⟩ := splitParamsStage q1 a b hsp hq1h
      refine ⟨s1, s2, s3, ?_, ?_, ?_, ?_, ?_, ?_⟩
      · exact fun hm => hq1hash (s4 '#' (Or.inl hm))
      · exact fun hm => hq1hash (s4 '#' (Or.inr hm))
      · intro hm
        refine hm2 ?_
        rw [hn1]
        exact List.mem_append_right _ (List.mem_cons_of_mem _ hm)
      · exact fun hm => hn2 (s4 '?' (Or.inl hm))
      · exact fun hm => hn2 (s4 '?' (Or.inr hm))
      · intro c hc
        rcases hc with hc | hc | hc | hc
        · rw [hm1, hn1]
          exact List.mem_append_left _
            (List.mem_append_left _ (s4 c (Or.inl hc)))
        · rw [hm1, hn1]
          exact List.mem_append_left _
            (List.mem_append_left _ (s4 c (Or.inr hc)))
        · rw [hm1, hn1]
          exact List.mem_append_left _
            (List.mem_append_right _ (List.mem_cons_of_mem _ hc))
        · rw [hm1]
          exact List.mem_append_right _ (List.mem_cons_of_mem _ hc)

/-- The invariants a successful scheme-shaped parse guarantees about
the produced `UrlParts`; they are strong enough to make `urlunparse` a
left inverse of this parse. -/
structure ParsedInv (r : UrlParts) : Prop where
  scheme_ok : r.scheme = "http".toList ∨ r.scheme = "https".toList
  netloc_ok : ∀ c ∈ r.netloc, ¬ netlocStop c = true
  brackets : (r.netloc.contains '[' ) = (r.netloc.contains ']')
  path_head : r.path = [] ∨ r.path.head? = some '/'
  path_nil : r.path = [] → r.params = []
  pp_join : splitParams (joinParams r.path r.params) = (r.path, r.params)
  hash_path : '#' ∉ r.path
  hash_params : '#' ∉ r.params
  hash_query : '#' ∉ r.query
  quest_path : '?' ∉ r.path
  quest_params : '?' ∉ r.params
  safe_all : ∀ c, (c ∈ r.netloc ∨ c ∈ r.path ∨ c ∈ r.params ∨ c ∈ r.query ∨ c ∈ r.fragment) →
    ¬ (c = '\t' ∨ c = '\r' ∨ c = '\n')

theorem parseTail_inv (sch tail : List Char) (r : UrlParts)
    (hsch : sch = "http".toList ∨ sch = "https".toList)
    (h : parseTail sch tail = some r) :
    ParsedInv r ∧ r.scheme = sch := by
  simp only [parseTail] at h
  split at h
  next hbr => cases h
  next hbr =>
    have hne : ((removeUnsafe tail).takeWhile (fun c => ¬ netlocStop c)).contains '[' =
        ((removeUnsafe tail).takeWhile (fun c => ¬ netlocStop c)).contains ']' :=
      not_ne_iff.mp hbr
    rw [Option.some.injEq] at h
    subst h
    rcases hS : restStage ((removeUnsafe tail).dropWhile (fun c => ¬ netlocStop c))
      with ⟨p1, p2, p3, p4⟩
    have hhead : (removeUnsafe tail).dropWhile (fun c => ¬ netlocStop c) = [] ∨
        ∃ t, (removeUnsafe tail).dropWhile (fun c => ¬ netlocStop c) = '/' :: t ∨
          (removeUnsafe tail).dropWhile (fun c => ¬ netlocStop c) = '?' :: t ∨
          (removeUnsafe tail).dropWhile (fun c => ¬ netlocStop c) = '#' :: t := by
      rcases dropWhile_head_cases (fun c => ¬ netlocStop c) (removeUnsafe tail)
        with h0 | ⟨c, t, h0, hcf⟩
      · exact Or.inl h0
      · right
        have hstop : netlocStop c = true := by simpa using hcf
        rcases netlocStop_cases c hstop with rfl | rfl | rfl
        · exact ⟨t, Or.inl h0⟩
        · exact ⟨t, Or.inr (Or.inl h0)⟩
        · exact ⟨t, Or.inr (Or.inr h0)⟩
    obtain ⟨i1, i2, i3, i4, i5, i6, i7, i8, i9⟩ :=
      restStage_inv _ p1 p2 p3 p4 hhead hS
    refine ⟨⟨hsch, ?_, hne, i2, i3, i1, i4, i5, i6, i7, i8, ?_⟩, rfl⟩
    · intro c hc
      simpa using List.mem_takeWhile_imp hc
    · intro c hc
      rcases hc with hc | hc | hc | hc | hc
      · exact mem_removeUnsafe tail c (mem_takeWhile_mem _ _ _ hc)
      · exact mem_removeUnsafe tail c
          (mem_dropWhile_mem _ _ _ (i9 c (Or.inl hc)))
      · exact mem_removeUnsafe tail c
          (mem_dropWhile_mem _ _ _ (i9 c (Or.inr (Or.inl hc))))
      · exact mem_removeUnsafe tail c
          (mem_dropWhile_mem _ _ _ (i9 c (Or.inr (Or.inr (Or.inl hc)))))
      · exact mem_removeUnsafe tail c
          (mem_dropWhile_mem _ _ _ (i9 c (Or.inr (Or.inr (Or.inr hc)))))

/-- Re-parsing the rejoined path/params/query/fragment of an invariant
parse recovers the four components. -/
theorem restStage_join (path params query fragment : List Char)
    (hj : splitParams (joinParams path params) = (path, params))
    (hhp : '#' ∉ path) (hhpr : '#' ∉ params) (hhq : '#' ∉ query)
    (hqp : '?' ∉ path) (hqpr : '?' ∉ params) :
    restStage (joinParams path params
      ++ (if query.isEmpty then [] else '?' :: query)
      ++ (if fragment.isEmpty then [] else '#' :: fragment)) =
      (path, params, query, fragment) := by
  have hhu : '#' ∉ joinParams path params := by
    unfold joinParams
    intro hm
    rcases List.mem_append.mp hm with hm | hm
    · exact hhp hm
    · rcases mem_ite_nil_cons hm with hm | hm
      · exact absurd hm (by decide)
      · exact hhpr hm
  have hqu : '?' ∉ joinParams path params := by
    unfold joinParams
    intro hm
    rcases List.mem_append.mp hm with hm | hm
    · exact hqp hm
    · rcases mem_ite_nil_cons hm with hm | hm
      · exact absurd hm (by decide)
      · exact hqpr hm
  by_cases hf : fragment = []
  · by_cases hq : query = []
    · subst hf
      subst hq
      have harg : joinParams path params ++
          (if ([] : List Char).isEmpty then [] else '?' :: ([] : List Char)) ++
          (if ([] : List Char).isEmpty then [] else '#' :: ([] : List Char)) =
          joinParams path params := by
        simp
      rw [harg]
      simp only [restStage]
      rw [splitFirst_not_mem '#' _ hhu]
      simp only []
      rw [splitFirst_not_mem '?' _ hqu]
      simp only []
      rw [hj]
    · subst hf
      have harg : joinParams path params ++
          (if query.isEmpty then [] else '?' :: query) ++
          (if ([] : List Char).isEmpty then [] else '#' :: ([] : List Char)) =
          joinParams path params ++ '?' :: query := by
        rw [if_neg (by simpa using hq)]
        simp
      rw [harg]
      simp only [restStage]
      rw [splitFirst_not_mem '#' _ (by
        intro hm
        rcases List.mem_append.mp hm with hm | hm
        · exact hhu hm
        · rcases List.mem_cons.mp hm with hm | hm
          · exact absurd hm (by decide)
          · exact hhq hm)]
      simp only []
      rw [splitFirst_append '?' _ _ hqu]
      simp only []
      rw [hj]
  · have hfarg : (if fragment.isEmpty then ([] : List Char) else '#' :: fragment) =
        '#' :: fragment := by
      rw [if_neg (by simpa using hf)]
    by_cases hq : query = []
    · subst hq
      have harg : joinParams path params ++
          (if ([] : List Char).isEmpty then [] else '?' :: ([] : List Char)) ++
          (if fragment.isEmpty then [] else '#' :: fragment) =
          joinParams path params ++ '#' :: fragment := by
        rw [hfarg]
        simp
      rw [harg]
      simp only [restStage]
      rw [splitFirst_append '#' _ _ hhu]
      simp only []
      rw [splitFirst_not_mem '?' _ hqu]
      simp only []
      rw [hj]
    · have harg : joinParams path params ++
          (if query.isEmpty then [] else '?' :: query) ++
          (if fragment.isEmpty then [] else '#' :: fragment) =
          (joinParams path params ++ '?' :: query) ++ '#' :: fragment := by
        rw [hfarg, if_neg (by simpa using hq)]
      rw [harg]
      simp only [restStage]
      rw [splitFirst_append '#' _ _ (by
        intro hm
        rcases List.mem_append.mp hm with hm | hm
        · exact hhu hm
        · rcases List.mem_cons.mp hm with hm | hm
          · exact absurd hm (by decide)
          · exact hhq hm)]
      simp only []
      rw [splitFirst_append '?' _ _ hqu]
      simp only []
      rw [hj]

/-- The exact string `urlunparse` produces for a record with a
nonempty scheme and netloc whose path starts with `/` (or is empty
with empty params). -/
theorem pyUrlunparse_shape (r : UrlParts)
    (hs : r.scheme ≠ []) (hn : r.netloc ≠ [])
    (hph : r.path = [] ∨ r.path.head? = some '/')
    (hpn : r.path = [] → r.params = []) :
    pyUrlunparse r = r.scheme ++ ':' :: '/' :: '/' ::
      (r.netloc ++ (joinParams r.path r.params
        ++ (if r.query.isEmpty then [] else '?' :: r.query)
        ++ (if r.fragment.isEmpty then [] else '#' :: r.fragment))) := by
  have hcond : ¬ (¬ (r.path ++
      (if r.params.isEmpty then [] else ';' :: r.params)).isEmpty ∧
      (r.path ++ (if r.params.isEmpty then [] else ';' :: r.params)).head? ≠
        some '/') := by
    rintro ⟨h1, h2⟩
    rcases hph with hp | hp
    · exact h1 (by rw [hp, hpn hp]; rfl)
    · rcases hpath : r.path with _ | ⟨c, t⟩
      · rw [hpath] at hp
        cases hp
      · refine h2 ?_
        rw [hpath] at hp
        rw [hpath, List.cons_append]
        exact hp
  simp only [pyUrlunparse]
  rw [if_pos (Or.inl (by simpa using hn))]
  rw [if_neg hcond]
  have hsne : ¬ (r.scheme.isEmpty = true) := by simpa using hs
  rw [if_neg hsne]
  by_cases hqe : r.query.isEmpty <;> by_cases hfe : r.fragment.isEmpty <;>
    simp [hqe, hfe, joinParams, List.append_assoc]

/-- Round trip: `urlparse` recovers the record `urlunparse` was
applied to, for records satisfying the parse invariants. -/
theorem pyUrlparse_unparse (r : UrlParts) (inv : ParsedInv r)
    (hn : r.netloc ≠ []) :
    pyUrlparse (pyUrlunparse r) = some r := by
  have hs : r.scheme ≠ [] := by
    rcases inv.scheme_ok with h | h <;> rw [h] <;> decide
  rw [pyUrlunparse_shape r hs hn inv.path_head inv.path_nil]
  rw [pyUrlparse_shaped r.scheme _ inv.scheme_ok]
  simp only [parseTail]
  have hTsafe : removeUnsafe (r.netloc ++ (joinParams r.path r.params
      ++ (if r.query.isEmpty then [] else '?' :: r.query)
      ++ (if r.fragment.isEmpty then [] else '#' :: r.fragment))) =
      r.netloc ++ (joinParams r.path r.params
      ++ (if r.query.isEmpty then [] else '?' :: r.query)
      ++ (if r.fragment.isEmpty then [] else '#' :: r.fragment)) := by
    apply removeUnsafe_eq_self
    intro c hc
    rcases List.mem_append.mp hc with hc | hc
    · exact inv.safe_all c (Or.inl hc)
    · rcases List.mem_append.mp hc with hc | hc
      · rcases List.mem_append.mp hc with hc | hc
        · unfold joinParams at hc
          rcases List.mem_append.mp hc with hc | hc
          · exact inv.safe_all c (Or.inr (Or.inl hc))
          · rcases mem_ite_nil_cons hc with rfl | hc
            · decide
            · exact inv.safe_all c (Or.inr (Or.inr (Or.inl hc)))
        · rcases mem_ite_nil_cons hc with rfl | hc
          · decide
          · exact inv.safe_all c (Or.inr (Or.inr (Or.inr (Or.inl hc))))
      · rcases mem_ite_nil_cons hc with rfl | hc
        · decide
        · exact inv.safe_all c (Or.inr (Or.inr (Or.inr (Or.inr hc))))
  rw [hTsafe]
  have hAll : ∀ c ∈ r.netloc, (fun c => ¬ netlocStop c : Char → Bool) c = true := by
    intro c hcm
    simpa using inv.netloc_ok c hcm
  have hHead : (joinParams r.path r.params
      ++ (if r.query.isEmpty then [] else '?' :: r.query)
      ++ (if r.fragment.isEmpty then [] else '#' :: r.fragment)) = [] ∨
      ∃ c t, (joinParams r.path r.params
      ++ (if r.query.isEmpty then [] else '?' :: r.query)
      ++ (if r.fragment.isEmpty then [] else '#' :: r.fragment)) = c :: t ∧
      (fun c => ¬ netlocStop c : Char → Bool) c = false := by
    rcases inv.path_head with hp | hp
    · have hparams := inv.path_nil hp
      have hJ : joinParams r.path r.params = [] := by
        rw [joinParams, hp, hparams]
        rfl
      rw [hJ, List.nil_append]
      by_cases hq : r.query.isEmpty
      · rw [if_pos hq, List.nil_append]
        by_cases hfr2 : r.fragment.isEmpty
        · rw [if_pos hfr2]
          exact Or.inl rfl
        · rw [if_neg hfr2]
          exact Or.inr ⟨'#', r.fragment, rfl, by decide⟩
      · rw [if_neg hq, List.cons_append]
        exact Or.inr ⟨'?', _, rfl, by decide⟩
    · rcases hpath : r.path with _ | ⟨c, t⟩
      · rw [hpath] at hp
        cases hp
      · have hc : c = '/' := by
          rw [hpath] at hp
          exact Option.some.inj hp
        subst hc
        right
        refine ⟨'/', ((t ++ (if r.params.isEmpty then [] else ';' :: r.params))
            ++ (if r.query.isEmpty then [] else '?' :: r.query))
            ++ (if r.fragment.isEmpty then [] else '#' :: r.fragment), ?_, by decide⟩
        simp only [joinParams]
        rfl
  obtain ⟨htw, hdw⟩ := takeWhile_dropWhile_append
    (fun c => ¬ netlocStop c : Char → Bool) r.netloc _ hAll hHead
  rw [htw, hdw]
  rw [inv.brackets]
  rw [if_neg (fun hcontr => hcontr rfl)]
  rw [restStage_join r.path r.params r.query r.fragment inv.pp_join
    inv.hash_path inv.hash_params inv.hash_query inv.quest_path
    inv.quest_params]

theorem startsHttp_shape (cs : List Char) (h : startsHttp cs = true) :
    (∃ t, cs = "http".toList ++ ':' :: '/' :: '/' :: t) ∨
    (∃ t, cs = "https".toList ++ ':' :: '/' :: '/' :: t) := by
  unfold startsHttp at h
  rw [Bool.or_eq_true] at h
  rcases h with h | h
  · left
    have h' : cs.take 7 = "http://".toList := by simpa using h
    have hcs : cs = "http://".toList ++ cs.drop 7 := by
      conv_lhs => rw [← List.take_append_drop 7 cs]
      rw [h']
    exact ⟨cs.drop 7, hcs.trans rfl⟩
  · right
    have h' : cs.take 8 = "https://".toList := by simpa using h
    have hcs : cs = "https://".toList ++ cs.drop 8 := by
      conv_lhs => rw [← List.take_append_drop 8 cs]
      rw [h']
    exact ⟨cs.drop 8, hcs.trans rfl⟩

/-- Every successful `normalize_url` output is `urlunparse` of a record
satisfying the parse invariants, with a nonempty netloc. -/
theorem normalizeUrlChars_eq_some (cs out : List Char)
    (h : normalizeUrlChars cs = some out) :
    ∃ r : UrlParts, ParsedInv r ∧ r.netloc ≠ [] ∧ out = pyUrlunparse r := by
  simp only [normalizeUrlChars] at h
  split at h
  next => cases h
  next h0 =>
    split at h
    next => cases h
    next h1 =>
      by_cases hS : startsHttp (rstripChars trailingPunct (stripWs cs)) = true
      · rw [if_pos hS] at h
        simp only [] at h
        rcases hP : pyUrlparse (rstripChars trailingPunct (stripWs cs))
          with _ | parts
        · rw [hP] at h
          simp only [] at h
          cases h
        · rw [hP] at h
          simp only [] at h
          split at h
          next => cases h
          next hNE =>
            rw [Option.some.injEq] at h
            rcases startsHttp_shape _ hS with ⟨t, ht⟩ | ⟨t, ht⟩
            · rw [ht, pyUrlparse_shaped "http".toList t (Or.inl rfl)] at hP
              obtain ⟨inv, _⟩ :=
                parseTail_inv "http".toList t parts (Or.inl rfl) hP
              exact ⟨parts, inv, by simpa using hNE, h.symm⟩
            · rw [ht, pyUrlparse_shaped "https".toList t (Or.inr rfl)] at hP
              obtain ⟨inv, _⟩ :=
                parseTail_inv "https".toList t parts (Or.inr rfl) hP
              exact ⟨parts, inv, by simpa using hNE, h.symm⟩
      · rw [if_neg hS] at h
        by_cases hD : domainRegexMatch (rstripChars trailingPunct (stripWs cs)) = true
        · rw [if_pos hD] at h
          simp only [] at h
          rcases hP : pyUrlparse ("https://".toList ++
              rstripChars trailingPunct (stripWs cs)) with _ | parts
          · rw [hP] at h
            simp only [] at h
            cases h
          · rw [hP] at h
            simp only [] at h
            split at h
            next => cases h
            next hNE =>
              rw [Option.some.injEq] at h
              have hP' : pyUrlparse ("https".toList ++ ':' :: '/' :: '/' ::
                  rstripChars trailingPunct (stripWs cs)) = some parts := hP
              rw [pyUrlparse_shaped "https".toList _ (Or.inr rfl)] at hP'
              obtain ⟨inv, _⟩ :=
                parseTail_inv "https".toList _ parts (Or.inr rfl) hP'
              exact ⟨parts, inv, by simpa using hNE, h.symm⟩
        · rw [if_neg hD] at h
          simp only [] at h
          cases h

theorem unparse_starts (r : UrlParts) (inv : ParsedInv r)
    (hn : r.netloc ≠ []) : startsHttp (pyUrlunparse r) = true := by
  have hs : r.scheme ≠ [] := by
    rcases inv.scheme_ok with h | h <;> rw [h] <;> decide
  rw [pyUrlunparse_shape r hs hn inv.path_head inv.path_nil]
  rcases inv.scheme_ok with h | h <;> rw [h] <;> rfl

/-- Re-normalizing a `normalize_url` output that does not end in
stripped whitespace or trailing punctuation returns it unchanged. -/
theorem normalizeUrlChars_stable (out : List Char) (r : UrlParts)
    (inv : ParsedInv r) (hn : r.netloc ≠ []) (hout : out = pyUrlunparse r)
    (hlast : ∀ c, out.getLast? = some c →
      pyWhitespace.contains c = false ∧ trailingPunct.contains c = false) :
    normalizeUrlChars out = some out := by
  have hs : r.scheme ≠ [] := by
    rcases inv.scheme_ok with h | h <;> rw [h] <;> decide
  have hshape := pyUrlunparse_shape r hs hn inv.path_head inv.path_nil
  have hhead : out.head? = some 'h' := by
    rw [hout, hshape]
    rcases inv.scheme_ok with h | h <;> rw [h] <;> rfl
  have hne : out ≠ [] := by
    intro h0
    rw [h0] at hhead
    cases hhead
  rcases hg : out.getLast? with _ | c
  · rw [List.getLast?_eq_none_iff] at hg
    exact absurd hg hne
  · obtain ⟨hws, hpunct⟩ := hlast c hg
    have hstrip : stripWs out = out := by
      unfold stripWs
      have hl : lstripChars pyWhitespace out = out := by
        rcases hout2 : out with _ | ⟨c0, t0⟩
        · exact absurd hout2 hne
        · have hc0 : c0 = 'h' := by
            rw [hout2] at hhead
            exact Option.some.inj hhead
          subst hc0
          exact lstripChars_cons_keep pyWhitespace 'h' t0 (by decide)
      rw [hl]
      exact rstripChars_keep pyWhitespace out c hg hws
    have hstrip2 : rstripChars trailingPunct (stripWs out) = out := by
      rw [hstrip]
      exact rstripChars_keep trailingPunct out c hg hpunct
    have hSH : startsHttp out = true := by
      rw [hout]
      exact unparse_starts r inv hn
    simp only [normalizeUrlChars]
    have h1 : ¬ (out.isEmpty = true) := by simpa using hne
    have h2 : ¬ ((stripWs out).isEmpty = true) := by
      rw [hstrip]
      simpa using hne
    rw [if_neg h1, if_neg h2, hstrip2, if_pos hSH]
    simp only []
    rw [hout, pyUrlparse_unparse r inv hn]
    simp only []
    rw [if_neg (by simpa using hn)]

/-- Claim C8 counterexample: `normalize_url` is not idempotent.  On
`"https://e.com/a ?"` it succeeds with `"https://e.com/a "` — stripping
the trailing `?` exposes a trailing space that the earlier `strip()`
could not see — and normalizing that output again yields the different
string `"https://e.com/a"`. -/
theorem claim_C8_counterexample :
    normalize_url "https://e.com/a ?" = some "https://e.com/a " ∧
    normalize_url "https://e.com/a " = some "https://e.com/a" ∧
    ¬ (∀ s t : String, normalize_url s = some t → normalize_url t = some t) := by
  refine ⟨by decide, by decide, fun hall => ?_⟩
  have h1 := hall "https://e.com/a ?" "https://e.com/a " (by decide)
  exact absurd h1 (by decide)

/-- Claim C8 (amended): every successful `normalize_url` output starts
with `http://` or `https://` and re-parses to a nonempty netloc (host);
normalization is idempotent on every output that does not end in
whitespace or one of the stripped trailing punctuation characters
`.,;:!?)`; normalizing the bare domain `"example.com/fund"` yields
`"https://example.com/fund"`; and the non-domain string `"hello world"`
normalizes to `none` rather than a malformed URL. -/
theorem claim_C8_normalize_url (s t : String)
    (h : normalize_url s = some t) :
    (startsHttp t.toList = true ∧
      ∃ parts : UrlParts, pyUrlparse t.toList = some parts ∧
        parts.netloc ≠ []) ∧
    ((∀ c, t.toList.getLast? = some c →
        pyWhitespace.contains c = false ∧ trailingPunct.contains c = false) →
      normalize_url t = some t) ∧
    normalize_url "example.com/fund" = some "https://example.com/fund" ∧
    normalize_url "hello world" = none := by
  have hchars : ∃ l, normalizeUrlChars s.toList = some l ∧ t = ⟨l⟩ := by
    unfold normalize_url at h
    rcases hnc : normalizeUrlChars s.toList with _ | l
    · rw [hnc] at h
      cases h
    · rw [hnc] at h
      exact ⟨l, rfl, (Option.some.inj h).symm⟩
  obtain ⟨l, hl, rfl⟩ := hchars
  obtain ⟨r, inv, hn, hout⟩ := normalizeUrlChars_eq_some s.toList l hl
  refine ⟨⟨?_, ⟨r, ?_, hn⟩⟩, ?_, by decide, by decide⟩
  · show startsHttp l = true
    rw [hout]
    exact unparse_starts r inv hn
  · show pyUrlparse l = some r
    rw [hout]
    exact pyUrlparse_unparse r inv hn
  · intro hlast
    have hst := normalizeUrlChars_stable l r inv hn hout
      (fun c hgc => hlast c hgc)
    show (normalizeUrlChars l).map (fun x => (⟨x⟩ : String)) = some ⟨l⟩
    rw [hst]
    rfl

/-- Witness for claim C8 at a concrete input: `"https://e.org/x"`
normalizes to itself, and the well-formedness conclusions hold there. -/
theorem claim_C8_witness :
    normalize_url "https://e.org/x" = some "https://e.org/x" ∧
    startsHttp "https://e.org/x".toList = true ∧
    ∃ parts : UrlParts, pyUrlparse "https://e.org/x".toList = some parts ∧
      parts.netloc ≠ [] := by
  have h0 : normalize_url "https://e.org/x" = some "https://e.org/x" := by
    decide
  have h := claim_C8_normalize_url "https://e.org/x" "https://e.org/x" h0
  exact ⟨h0, h.1.1, h.1.2⟩

end RagSpec
